import Mathlib

/-!
# TaskReaper: the task store, its undo log and its date utilities

A shallow embedding of `src/S-25/main.cpp`.

* Strings are `String`s, processed as lists of characters.
* `int` values (task ids, priorities, menu indices) are unbounded `Int`s; the
  embedding is about runs that stay below `int` overflow.
* The static counter `Task::nextId`, and the files the program reads and writes,
  are fields of the store record, so that every operation is a pure function on
  `ToDoList`.
* Console input is a parameter of the operation that reads it: an operation takes
  the values that its prompts deliver (for a prompt that repeats until the value is
  accepted, the value that leaves the loop). Console output is not modelled.
* The system clock is a parameter: a clock reading `Tm` holds what `localtime` returns
  and the daylight-saving spans of the time zone, which `mktime` consults.
-/

namespace TaskReaper

/-! ## Character and stream helpers (the library calls the source relies on) -/

/-- The character class of `\d` (and of `isdigit` in the C locale): `0` to `9`. -/
def isDigit (c : Char) : Bool := decide (48 ≤ c.toNat) && decide (c.toNat ≤ 57)

/-- The value of a decimal digit character. -/
def digitVal (c : Char) : Nat := c.toNat - 48

/-- The character class of `isspace` in the C locale. -/
def isSpace (c : Char) : Bool :=
  c.toNat == 32 || (decide (9 ≤ c.toNat) && decide (c.toNat ≤ 13))

/-- The decimal value of a run of digit characters, most significant first. -/
def decimalValue (ds : List Char) : Nat := ds.foldl (fun acc c => 10 * acc + digitVal c) 0

/-- Smallest value of `int`. -/
def INT_MIN : Int := -2147483648

/-- Largest value of `int`. -/
def INT_MAX : Int := 2147483647

/-- The sign part of what `strtol` reads: an optional `+` or `-`. -/
def stoiSign : List Char → Bool × List Char
  | c :: r => if c = '-' then (true, r) else if c = '+' then (false, r) else (false, c :: r)
  | [] => (false, [])

/-- The call `std::stoi(s)`: leading white space, an optional sign, then the longest run
of digits. `none` stands for the exception it throws (`invalid_argument` when there is
no digit, `out_of_range` when the value does not fit an `int`). -/
def stoi (s : List Char) : Option Int :=
  let p := stoiSign (s.dropWhile isSpace)
  let ds := p.2.takeWhile isDigit
  if ds.isEmpty then none
  else
    let v : Int := if p.1 then -(decimalValue ds : Int) else (decimalValue ds : Int)
    if INT_MIN ≤ v ∧ v ≤ INT_MAX then some v else none

/-- The tokens that `while (getline(stream, token, delim))` reads from a stream holding
`cs`: the pieces between delimiters; a final piece that is empty is not read (the stream
is at its end). -/
def getlineAll (delim : Char) : List Char → List (List Char)
  | [] => []
  | c :: cs =>
    if c = delim then [] :: getlineAll delim cs
    else
      match getlineAll delim cs with
      | [] => [[c]]
      | tok :: rest => (c :: tok) :: rest

/-! ## DateUtils -/

/-- The call `regex_match(date, R"(\d{4}-\d{2}-\d{2})")`. -/
def matchesDatePattern (cs : List Char) : Bool :=
  match cs with
  | [y1, y2, y3, y4, s1, m1, m2, s2, d1, d2] =>
    isDigit y1 && isDigit y2 && isDigit y3 && isDigit y4 && (s1 == '-') &&
    isDigit m1 && isDigit m2 && (s2 == '-') && isDigit d1 && isDigit d2
  | _ => false

/-- The range checks of `DateUtils::isValidDate` on the parsed month and day. -/
def dateRangeOk (m d : Int) : Bool :=
  if m < 1 ∨ m > 12 ∨ d < 1 ∨ d > 31 then false
  else if (m = 4 ∨ m = 6 ∨ m = 9 ∨ m = 11) ∧ d > 30 then false
  else if m = 2 ∧ d > 29 then false
  else true

/-- The function `DateUtils::isValidDate`. The three `getline(ss, _, '-')` calls read the first
three tokens of the text (a read that fails leaves its string empty). A `stoi` that throws
has no Boolean result; `stoi_of_digits` shows that it cannot happen once the pattern has
matched, and the branch is given `false`. -/
def isValidDate (date : String) : Bool :=
  if !matchesDatePattern date.data then false
  else
    let toks := getlineAll '-' date.data
    match stoi (toks.getD 0 []), stoi (toks.getD 1 []), stoi (toks.getD 2 []) with
    | some _, some m, some d => dateRangeOk m d
    | _, _, _ => false

/-- A span of local wall-clock time in which daylight-saving time is in effect: from `start`
up to, not including, `stop`, each given as (`tm_year`, `tm_mon`, `tm_mday`, `tm_hour`). -/
structure DstSpan where
  start : Int × Nat × Nat × Nat
  stop : Int × Nat × Nat × Nat
deriving DecidableEq, Repr

/-- A clock reading as the C library hands it to the program: the fields of `struct tm` that
`localtime` fills and that the source or `mktime` reads (years since 1900, month `0..11`, day
of month, hour `0..23`, daylight-saving flag), together with the daylight-saving spans of the
time zone of the process, which `mktime` consults. Minutes and seconds are left out: the
source does not change them and a daylight-saving shift is a whole hour. -/
structure Tm where
  tm_year : Int
  tm_mon : Nat
  tm_mday : Nat
  tm_hour : Nat
  tm_isdst : Bool
  zone : List DstSpan
deriving DecidableEq, Repr

/-- Leap years of the Gregorian calendar. -/
def isLeapYear (y : Int) : Bool := (y % 4 == 0 && y % 100 != 0) || y % 400 == 0

/-- Number of days of month `mon` (`0..11`) of calendar year `y`. -/
def daysInMonth (y : Int) (mon : Nat) : Nat :=
  if mon = 1 then (if isLeapYear y then 29 else 28)
  else if mon = 3 ∨ mon = 5 ∨ mon = 8 ∨ mon = 10 then 30
  else 31

/-- Day overflow of `mktime`: while the day of month is past the end of the month, move into
the next month. The result is (`tm_year`, `tm_mon`, `tm_mday`). -/
def normalizeDays : Nat → Int → Nat → Nat → Int × Nat × Nat
  | 0, y, m, d => (y, m, d)
  | fuel + 1, y, m, d =>
    if d ≤ daysInMonth (1900 + y) m then (y, m, d)
    else if m = 11 then normalizeDays fuel (y + 1) 0 (d - daysInMonth (1900 + y) m)
    else normalizeDays fuel y (m + 1) (d - daysInMonth (1900 + y) m)

/-- The normalisation `mktime` performs on the calendar fields, for a day of month that is at
least 1 and a month that is at least 0 (the source only ever adds to the fields that
`localtime` returned): months past December roll into the following years, days past the end
of the month roll into the following months. -/
def normalizeDate (t : Tm) : Tm :=
  { t with
    tm_year := (normalizeDays t.tm_mday (t.tm_year + ((t.tm_mon / 12 : Nat) : Int))
      (t.tm_mon % 12) t.tm_mday).1
    tm_mon := (normalizeDays t.tm_mday (t.tm_year + ((t.tm_mon / 12 : Nat) : Int))
      (t.tm_mon % 12) t.tm_mday).2.1
    tm_mday := (normalizeDays t.tm_mday (t.tm_year + ((t.tm_mon / 12 : Nat) : Int))
      (t.tm_mon % 12) t.tm_mday).2.2 }

/-- Order of two wall-clock times (`tm_year`, `tm_mon`, `tm_mday`, `tm_hour`). -/
def wallBefore (a b : Int × Nat × Nat × Nat) : Bool :=
  decide (a.1 < b.1) ||
  (decide (a.1 = b.1) && (decide (a.2.1 < b.2.1) ||
    (decide (a.2.1 = b.2.1) && (decide (a.2.2.1 < b.2.2.1) ||
      (decide (a.2.2.1 = b.2.2.1) && decide (a.2.2.2 < b.2.2.2))))))

/-- Whether daylight-saving time is in effect in the zone at the wall-clock time of `t`. -/
def dstInEffect (t : Tm) : Bool :=
  t.zone.any (fun span =>
    !wallBefore (t.tm_year, t.tm_mon, t.tm_mday, t.tm_hour) span.start &&
    wallBefore (t.tm_year, t.tm_mon, t.tm_mday, t.tm_hour) span.stop)

/-- The day after a calendar date. -/
def nextDay (t : Tm) : Tm :=
  if t.tm_mday + 1 ≤ daysInMonth (1900 + t.tm_year) t.tm_mon then
    { t with tm_mday := t.tm_mday + 1 }
  else if t.tm_mon = 11 then { t with tm_year := t.tm_year + 1, tm_mon := 0, tm_mday := 1 }
  else { t with tm_mon := t.tm_mon + 1, tm_mday := 1 }

/-- The day before a calendar date. -/
def prevDay (t : Tm) : Tm :=
  if 1 < t.tm_mday then { t with tm_mday := t.tm_mday - 1 }
  else if t.tm_mon = 0 then { t with tm_year := t.tm_year - 1, tm_mon := 11, tm_mday := 31 }
  else { t with tm_mon := t.tm_mon - 1,
                tm_mday := daysInMonth (1900 + t.tm_year) (t.tm_mon - 1) }

/-- The call `mktime(ltm)` on the fields the source has advanced. The calendar fields are
normalised; the time of day and the flag `tm_isdst` are the ones `localtime` returned for the
present moment. `mktime` reads the fields as a wall-clock time under that flag: when the flag
says daylight-saving time and the zone is on standard time at the normalised date, the
moment meant is one hour earlier on the zone's clock, and when the flag says standard time
and the zone is on daylight-saving time there, one hour later; the fields are rewritten to
the zone's clock, which moves the date when the hour crosses midnight. Where the flag agrees
with the zone, and in a zone without daylight-saving time, only the normalisation remains. -/
def mktime (t : Tm) : Tm :=
  let w := normalizeDate t
  if t.tm_isdst = dstInEffect w then w
  else if t.zone.isEmpty then w
  else if t.tm_isdst then
    if w.tm_hour = 0 then { prevDay w with tm_hour := 23, tm_isdst := false }
    else { w with tm_hour := w.tm_hour - 1, tm_isdst := false }
  else
    if w.tm_hour = 23 then { nextDay w with tm_hour := 0, tm_isdst := true }
    else { w with tm_hour := w.tm_hour + 1, tm_isdst := true }

/-- Output of a number under `setfill('0') << setw(2)`. -/
def pad2 (n : Nat) : String :=
  let s := toString n
  if s.length < 2 then "0" ++ s else s

/-- The text the source streams out of a `tm`: the year, then month and day padded to two
digits. -/
def formatDate (t : Tm) : String :=
  toString (1900 + t.tm_year) ++ "-" ++ pad2 (1 + t.tm_mon) ++ "-" ++ pad2 t.tm_mday

/-- The function `DateUtils::getCurrentDate`, for the clock reading `now`. -/
def getCurrentDate (now : Tm) : String := formatDate now

/-- The function `DateUtils::isOverdue`: `std::string` comparison with the current date. -/
def isOverdue (now : Tm) (dueDate : String) : Bool := decide (dueDate < getCurrentDate now)

/-! ## Task -/

/-- The class `Task`. -/
structure Task where
  id : Int
  description : String
  isCompleted : Bool
  priority : Int
  dueDate : String
  category : String
  isRecurring : Bool
  recurringType : String
deriving DecidableEq, Repr

/-- The constructor `Task::Task`, given the current value of the counter `nextId`; the caller
advances the counter. -/
def Task.ctor (nextId : Int) (desc : String) (prio : Int) (due : String) (cat : String) : Task :=
  { id := nextId, description := desc, isCompleted := false, priority := prio,
    dueDate := due, category := cat, isRecurring := false, recurringType := "" }

def Task.setDescription (t : Task) (desc : String) : Task := { t with description := desc }

def Task.setPriority (t : Task) (prio : Int) : Task := { t with priority := prio }

def Task.setDueDate (t : Task) (due : String) : Task := { t with dueDate := due }

def Task.setCategory (t : Task) (cat : String) : Task := { t with category := cat }

def Task.markCompleted (t : Task) : Task := { t with isCompleted := true }

def Task.markPending (t : Task) : Task := { t with isCompleted := false }

def Task.setRecurring (t : Task) (type : String) : Task :=
  { t with isRecurring := true, recurringType := type }

/-- The clock fields after the advance `Task::createNextOccurrence` applies for a recurrence
type, before `mktime`. -/
def advanceClock (now : Tm) (recurringType : String) : Tm :=
  if recurringType = "daily" then { now with tm_mday := now.tm_mday + 1 }
  else if recurringType = "weekly" then { now with tm_mday := now.tm_mday + 7 }
  else if recurringType = "monthly" then { now with tm_mon := now.tm_mon + 1 }
  else now

/-- The method `Task::createNextOccurrence`: the returned task and the counter afterwards. -/
def Task.createNextOccurrence (t : Task) (now : Tm) (nextId : Int) : Task × Int :=
  if !t.isRecurring then (t, nextId)
  else
    ({ t with id := nextId, isCompleted := false,
              dueDate := formatDate (mktime (advanceClock now t.recurringType)) },
     nextId + 1)

/-! ## Action and ToDoList -/

/-- The enumeration `Action::Type`. -/
inductive ActionType where
  | ADD
  | DELETE
  | COMPLETE
  | EDIT
deriving DecidableEq, Repr

/-- The class `Action`. -/
structure Action where
  type : ActionType
  task : Task
  index : Int
deriving DecidableEq, Repr

/-- The class `User`. -/
structure User where
  username : String
  password : String
deriving DecidableEq, Repr

def User.authenticate (u : User) (pass : String) : Bool := decide (u.password = pass)

/-- The class `ToDoList`, together with the static counter `Task::nextId` and the task files
on disk (file name and content). -/
structure ToDoList where
  tasks : List Task
  actionHistory : List Action
  users : List (String × User)
  currentUser : String
  nextId : Int
  files : List (String × String)
deriving DecidableEq, Repr

/-- The constant `ToDoList::MAX_HISTORY`. -/
def MAX_HISTORY : Nat := 10

/-- The store right after program start: nothing in memory, counter at 1. -/
def ToDoList.init (users : List (String × User)) (files : List (String × String)) : ToDoList :=
  { tasks := [], actionHistory := [], users := users, currentUser := "", nextId := 1,
    files := files }

/-- The method `ToDoList::addToHistory`. -/
def addToHistory (s : ToDoList) (type : ActionType) (task : Task) (index : Int) : ToDoList :=
  let h := s.actionHistory ++ [Action.mk type task index]
  { s with actionHistory := if h.length > MAX_HISTORY then h.tail else h }

/-- The statement `tasks.erase(it)` at the first task whose id is `id` (the loop of the ADD case
of `undoLastAction`, which stops at the first match). -/
def eraseFirstId (id : Int) : List Task → List Task
  | [] => []
  | t :: ts => if t.id = id then ts else t :: eraseFirstId id ts

/-- The call `markPending()` on the first task whose id is `id` (the loop of the COMPLETE case of
`undoLastAction`, which stops at the first match). -/
def markPendingFirstId (id : Int) : List Task → List Task
  | [] => []
  | t :: ts => if t.id = id then t.markPending :: ts else t :: markPendingFirstId id ts

/-- The call `tasks.insert(tasks.begin() + i, t)` for `i ≤ tasks.size()`. -/
def insertAt (t : Task) : Nat → List Task → List Task
  | 0, ts => t :: ts
  | _ + 1, [] => [t]
  | i + 1, x :: ts => x :: insertAt t i ts

/-- The task a new entry starts from in `addTask`: the constructor, the default category, and the
recurrence chosen at the prompt (`recurring` is the answer to the y/n question, `recurType` the
number typed for the type). -/
def newTaskFromInput (nextId : Int) (desc : String) (prio : Int) (due : String)
    (category : String) (recurring : Char) (recurType : Int) : Task :=
  let newTask := Task.ctor nextId desc prio due (if category.isEmpty then "General" else category)
  if recurring = 'y' ∨ recurring = 'Y' then
    if recurType = 1 then newTask.setRecurring "daily"
    else if recurType = 2 then newTask.setRecurring "weekly"
    else if recurType = 3 then newTask.setRecurring "monthly"
    else newTask
  else newTask

/-- The method `ToDoList::addTask`. -/
def addTask (s : ToDoList) (desc : String) (prio : Int) (due : String) (category : String)
    (recurring : Char) (recurType : Int) : ToDoList :=
  let newTask := newTaskFromInput s.nextId desc prio due category recurring recurType
  addToHistory { s with tasks := s.tasks ++ [newTask], nextId := s.nextId + 1 }
    ActionType.ADD newTask (-1)

/-- The field change of `ToDoList::editTask` for menu choice `choice` (1 description, 2 priority,
3 due date, 4 category); `none` is the `default:` branch. `text` is the text typed and `num` the
number typed. -/
def applyEdit (t : Task) (choice : Int) (text : String) (num : Int) : Option Task :=
  if choice = 1 then some (t.setDescription text)
  else if choice = 2 then some (t.setPriority num)
  else if choice = 3 then some (t.setDueDate text)
  else if choice = 4 then some (t.setCategory text)
  else none

/-- The method `ToDoList::editTask`. -/
def editTask (s : ToDoList) (idx : Int) (choice : Int) (text : String) (num : Int) : ToDoList :=
  if s.tasks.isEmpty then s
  else if idx < 1 ∨ idx > (s.tasks.length : Int) then s
  else
    match s.tasks.get? (idx - 1).toNat with
    | none => s
    | some oldTask =>
      match applyEdit oldTask choice text num with
      | none => s
      | some edited =>
        addToHistory { s with tasks := s.tasks.set (idx - 1).toNat edited }
          ActionType.EDIT oldTask (idx - 1)

/-- The method `ToDoList::deleteTask`. -/
def deleteTask (s : ToDoList) (idx : Int) : ToDoList :=
  if s.tasks.isEmpty then s
  else if idx < 1 ∨ idx > (s.tasks.length : Int) then s
  else
    match s.tasks.get? (idx - 1).toNat with
    | none => s
    | some deletedTask =>
      addToHistory { s with tasks := s.tasks.eraseIdx (idx - 1).toNat }
        ActionType.DELETE deletedTask (idx - 1)

/-- The method `ToDoList::markTaskCompleted`, at clock reading `now`. -/
def markTaskCompleted (now : Tm) (s : ToDoList) (idx : Int) : ToDoList :=
  if s.tasks.isEmpty then s
  else if idx < 1 ∨ idx > (s.tasks.length : Int) then s
  else
    match s.tasks.get? (idx - 1).toNat with
    | none => s
    | some oldTask =>
      let s1 := addToHistory { s with tasks := s.tasks.set (idx - 1).toNat oldTask.markCompleted }
        ActionType.COMPLETE oldTask (-1)
      if oldTask.markCompleted.isRecurring then
        let r := oldTask.markCompleted.createNextOccurrence now s1.nextId
        { s1 with tasks := s1.tasks ++ [r.1], nextId := r.2 }
      else s1

/-- The inverse `ToDoList::undoLastAction` applies for a popped action. -/
def applyUndo (tasks : List Task) (a : Action) : List Task :=
  match a.type with
  | ActionType.ADD => eraseFirstId a.task.id tasks
  | ActionType.DELETE =>
    if a.index ≥ 0 ∧ a.index ≤ (tasks.length : Int) then insertAt a.task a.index.toNat tasks
    else tasks
  | ActionType.COMPLETE => markPendingFirstId a.task.id tasks
  | ActionType.EDIT =>
    if a.index ≥ 0 ∧ a.index < (tasks.length : Int) then tasks.set a.index.toNat a.task
    else tasks

/-- The method `ToDoList::undoLastAction`. -/
def undoLastAction (s : ToDoList) : ToDoList :=
  match s.actionHistory.getLast? with
  | none => s
  | some lastAction =>
    { s with actionHistory := s.actionHistory.dropLast, tasks := applyUndo s.tasks lastAction }

/-- Output of a `bool` on a stream. -/
def showBool (b : Bool) : String := if b then "1" else "0"

/-- The line `saveTasks` writes for a task. -/
def taskLine (t : Task) : String :=
  toString t.id ++ "|" ++ t.description ++ "|" ++ showBool t.isCompleted ++ "|" ++
  toString t.priority ++ "|" ++ t.dueDate ++ "|" ++ t.category ++ "|" ++
  showBool t.isRecurring ++ "|" ++ t.recurringType ++ "\n"

/-- Writing a file: the content of `name` is replaced, or the file is created. -/
def writeFile (files : List (String × String)) (name content : String) : List (String × String) :=
  (name, content) :: files.filter (fun f => f.1 != name)

/-- Reading a file: its content if it exists. -/
def readFile (files : List (String × String)) (name : String) : Option String :=
  (files.find? (fun f => f.1 == name)).map Prod.snd

/-- The method `ToDoList::saveTasks` (the file is taken to open). -/
def saveTasks (s : ToDoList) : ToDoList :=
  if s.currentUser.isEmpty then s
  else
    { s with files := writeFile s.files (s.currentUser ++ "_tasks.txt")
                        (String.join (s.tasks.map taskLine)) }

/-- The task `loadTasks` builds from the tokens of one line that has at least six of them, given
the counter; `none` when `stoi` throws on the priority token. -/
def taskOfTokens (nextId : Int) (tokens : List (List Char)) : Option Task :=
  match stoi (tokens.getD 3 []) with
  | none => none
  | some prio =>
    let task := Task.ctor nextId (String.mk (tokens.getD 1 [])) prio (String.mk (tokens.getD 4 []))
      (String.mk (tokens.getD 5 []))
    let task := if tokens.getD 2 [] = ['1'] then task.markCompleted else task
    let task :=
      if tokens.length ≥ 8 ∧ tokens.getD 6 [] = ['1'] then
        task.setRecurring (String.mk (tokens.getD 7 []))
      else task
    some task

/-- The read loop of `loadTasks` over the lines of the file: the tasks appended and the counter
afterwards; `none` when a `stoi` throws. -/
def loadLines : List (List Char) → List Task → Int → Option (List Task × Int)
  | [], tasks, nextId => some (tasks, nextId)
  | line :: lines, tasks, nextId =>
    let tokens := getlineAll '|' line
    if tokens.length ≥ 6 then
      match taskOfTokens nextId tokens with
      | none => none
      | some task => loadLines lines (tasks ++ [task]) (nextId + 1)
    else loadLines lines tasks nextId

/-- The method `ToDoList::loadTasks`; `none` when the program stops on an exception of `stoi`. -/
def loadTasks (s : ToDoList) : Option ToDoList :=
  if s.currentUser.isEmpty then some s
  else
    match readFile s.files (s.currentUser ++ "_tasks.txt") with
    | none => some { s with tasks := [] }
    | some content =>
      match loadLines (getlineAll (Char.ofNat 10) content.data) [] s.nextId with
      | none => none
      | some r => some { s with tasks := r.1, nextId := r.2 }

/-- The method `ToDoList::registerUser`: the store afterwards and the value returned. -/
def registerUser (s : ToDoList) (username password : String) : ToDoList × Bool :=
  match s.users.find? (fun u => u.1 == username) with
  | some _ => (s, false)
  | none => ({ s with users := s.users ++ [(username, User.mk username password)] }, true)

/-- The method `ToDoList::loginUser`: the store afterwards and the value returned; `none` when
`loadTasks` stops the program. -/
def loginUser (s : ToDoList) (username password : String) : Option (ToDoList × Bool) :=
  match s.users.find? (fun u => u.1 == username) with
  | some u =>
    if u.2.authenticate password then
      (loadTasks { s with currentUser := username }).map (fun s1 => (s1, true))
    else some (s, false)
  | none => some (s, false)

/-- The method `ToDoList::logoutUser`. -/
def logoutUser (s : ToDoList) : ToDoList :=
  if !s.currentUser.isEmpty then
    { saveTasks s with currentUser := "", tasks := [], actionHistory := [] }
  else s

/-! ## Sequences of operations -/

/-- One call of the main menu that can change the store, with the input it reads. -/
inductive Op where
  | add (desc : String) (prio : Int) (due : String) (category : String) (recurring : Char)
      (recurType : Int)
  | edit (idx : Int) (choice : Int) (text : String) (num : Int)
  | delete (idx : Int)
  | complete (now : Tm) (idx : Int)
  | undo
  | logout
deriving DecidableEq, Repr

/-- The store after one menu call. -/
def applyOp (s : ToDoList) : Op → ToDoList
  | Op.add desc prio due category recurring recurType =>
    addTask s desc prio due category recurring recurType
  | Op.edit idx choice text num => editTask s idx choice text num
  | Op.delete idx => deleteTask s idx
  | Op.complete now idx => markTaskCompleted now s idx
  | Op.undo => undoLastAction s
  | Op.logout => logoutUser s

/-- The store after a sequence of menu calls. -/
def runOps (s : ToDoList) (ops : List Op) : ToDoList := ops.foldl applyOp s

/-- The action a menu call passes to `addToHistory` in store `s`, when it passes one: the calls
that reach their `addToHistory` line are an add, and an edit (with a menu choice 1 to 4), a
delete or a complete whose index is in `1..size`. -/
def opRecord (s : ToDoList) : Op → Option Action
  | Op.add desc prio due category recurring recurType =>
    some ⟨ActionType.ADD, newTaskFromInput s.nextId desc prio due category recurring recurType, -1⟩
  | Op.edit idx choice _ _ =>
    if 1 ≤ idx ∧ idx ≤ (s.tasks.length : Int) ∧ 1 ≤ choice ∧ choice ≤ 4 then
      (s.tasks.get? (idx - 1).toNat).map (fun t => ⟨ActionType.EDIT, t, idx - 1⟩)
    else none
  | Op.delete idx =>
    if 1 ≤ idx ∧ idx ≤ (s.tasks.length : Int) then
      (s.tasks.get? (idx - 1).toNat).map (fun t => ⟨ActionType.DELETE, t, idx - 1⟩)
    else none
  | Op.complete _ idx =>
    if 1 ≤ idx ∧ idx ≤ (s.tasks.length : Int) then
      (s.tasks.get? (idx - 1).toNat).map (fun t => ⟨ActionType.COMPLETE, t, -1⟩)
    else none
  | Op.undo => none
  | Op.logout => none

/-- The actions a sequence of successful mutations records, in order; `none` as soon as a call of
the sequence is not a successful mutation. -/
def recordsOf : ToDoList → List Op → Option (List Action)
  | _, [] => some []
  | s, op :: ops =>
    match opRecord s op with
    | none => none
    | some a => (recordsOf (applyOp s op) ops).map (fun as => a :: as)

/-- The store after `n` calls of `undoLastAction`. -/
def undoTimes : Nat → ToDoList → ToDoList
  | 0, s => s
  | n + 1, s => undoTimes n (undoLastAction s)

/-- The validity rule in the words of the specification, to be compared with `isValidDate`: ten characters of the shape `DDDD-DD-DD`,
month value in `1..12`, day value in `1..31`, at most 30 in months 4, 6, 9, 11 and at most 29
in month 2. -/
def SpecValidDate (s : String) : Prop :=
  ∃ y1 y2 y3 y4 m1 m2 d1 d2 : Char,
    s.data = [y1, y2, y3, y4, '-', m1, m2, '-', d1, d2] ∧
    isDigit y1 = true ∧ isDigit y2 = true ∧ isDigit y3 = true ∧ isDigit y4 = true ∧
    isDigit m1 = true ∧ isDigit m2 = true ∧ isDigit d1 = true ∧ isDigit d2 = true ∧
    1 ≤ 10 * digitVal m1 + digitVal m2 ∧ 10 * digitVal m1 + digitVal m2 ≤ 12 ∧
    1 ≤ 10 * digitVal d1 + digitVal d2 ∧ 10 * digitVal d1 + digitVal d2 ≤ 31 ∧
    ((10 * digitVal m1 + digitVal m2 = 4 ∨ 10 * digitVal m1 + digitVal m2 = 6 ∨
      10 * digitVal m1 + digitVal m2 = 9 ∨ 10 * digitVal m1 + digitVal m2 = 11) →
        10 * digitVal d1 + digitVal d2 ≤ 30) ∧
    (10 * digitVal m1 + digitVal m2 = 2 → 10 * digitVal d1 + digitVal d2 ≤ 29)

/-! ## Sample stores -/

/-- A store with one task that is already completed. -/
def completedOnce : ToDoList :=
  { tasks := [⟨1, "pay rent", true, 1, "2024-01-10", "General", false, ""⟩],
    actionHistory := [], users := [], currentUser := "ann", nextId := 2, files := [] }

/-- A store used to evaluate the operations: three tasks, the first recurring, the third
completed. -/
def sampleStore : ToDoList :=
  { tasks := [⟨1, "pay rent", false, 1, "2024-01-10", "General", true, "daily"⟩,
              ⟨2, "call bob", false, 2, "2024-02-01", "Work", false, ""⟩,
              ⟨3, "water plants", true, 3, "2024-02-03", "Home", false, ""⟩],
    actionHistory := [],
    users := [("ann", ⟨"ann", "pw"⟩)],
    currentUser := "ann",
    nextId := 4,
    files := [("ann_tasks.txt",
      "7|pay rent|0|1|2024-01-10|General|1|daily\n9|call bob|1|2|2024-02-01|Work\n")] }

/-- Eleven menu calls that each record an action when run from `sampleStore`. -/
def elevenOps : List Op :=
  [Op.add "buy milk" 2 "2024-03-01" "" 'n' 0,
   Op.edit 1 1 "pay the rent" 0,
   Op.complete ⟨124, 5, 1, 12, false, []⟩ 2,
   Op.delete 3,
   Op.add "file taxes" 1 "2024-04-15" "Money" 'y' 3,
   Op.edit 2 2 "" 3,
   Op.complete ⟨124, 5, 1, 12, false, []⟩ 1,
   Op.delete 1,
   Op.edit 1 4 "Calls" 0,
   Op.add "book trip" 3 "2024-07-01" "Fun" 'Y' 2,
   Op.edit 2 3 "2024-03-05" 0]

/-- The actions the calls of `elevenOps` record, read off the run. -/
def elevenRecords : List Action := (recordsOf sampleStore elevenOps).getD []

/-- The tasks `loadTasks` reads for user `u` in store `s`: none when the user has no file. -/
def tasksLoadedFor (s : ToDoList) (u : String) : Option (List Task) :=
  match readFile s.files (u ++ "_tasks.txt") with
  | none => some []
  | some content =>
    (loadLines (getlineAll (Char.ofNat 10) content.data) [] s.nextId).map Prod.fst

/-- The method `ToDoList::isLoggedIn`. -/
def isLoggedIn (s : ToDoList) : Bool := !s.currentUser.isEmpty

/-- One pass of the login menu of `main`: a login (choice 1) or a registration (choice 2) with
the two texts typed, or a choice the menu does not know. Choice 3 leaves the program. -/
inductive LoginMenuInput where
  | login (username password : String)
  | register (username password : String)
  | invalid
deriving DecidableEq, Repr

/-- The store after one pass of the login menu; `none` when `loadTasks` stops the program. -/
def loginMenuStep (s : ToDoList) : LoginMenuInput → Option ToDoList
  | LoginMenuInput.login username password => (loginUser s username password).map Prod.fst
  | LoginMenuInput.register username password => some (registerUser s username password).1
  | LoginMenuInput.invalid => some s

/-- The login loop of `main`, `while (!todo.isLoggedIn())`, over the passes typed: the store
when the loop is left or the input ends; `none` when the program stops. This loop holds the
only call of `loginUser` in the program; the menu that follows it has no login entry and its
logout entry ends the program. -/
def loginLoop : ToDoList → List LoginMenuInput → Option ToDoList
  | s, [] => some s
  | s, input :: rest =>
    if isLoggedIn s then some s
    else
      match loginMenuStep s input with
      | none => none
      | some s1 => loginLoop s1 rest

/-- Four passes of the login menu: a registration, a login with a wrong password, an unknown
choice and a login with an unknown name. -/
def samplePasses : List LoginMenuInput :=
  [LoginMenuInput.register "bob" "pw2", LoginMenuInput.login "ann" "wrong",
   LoginMenuInput.invalid, LoginMenuInput.login "carol" "pw"]

/-- A store in the login loop: started with user `ann` and the sample files, after the passes
of `samplePasses`. -/
def atLoginMenu : ToDoList :=
  (loginLoop (ToDoList.init sampleStore.users sampleStore.files) samplePasses).getD sampleStore

/-- The store after `ann` logs in from `atLoginMenu`. -/
def annLoggedIn : ToDoList :=
  ((loginUser atLoginMenu "ann" "pw").map Prod.fst).getD sampleStore

/-- A calendar date in `tm` fields: month `0..11` and a day of that month. -/
def IsCalendarDate (t : Tm) : Prop :=
  t.tm_mon < 12 ∧ 1 ≤ t.tm_mday ∧ t.tm_mday ≤ daysInMonth (1900 + t.tm_year) t.tm_mon

/-- The date `n` days after a calendar date. -/
def addDays : Nat → Tm → Tm
  | 0, t => t
  | n + 1, t => addDays n (nextDay t)

/-- The year, month and day that `isValidDate` parses out of a date text (the three `stoi`
values), when all three parse. -/
def parseDate (date : String) : Option (Int × Int × Int) :=
  let toks := getlineAll '-' date.data
  match stoi (toks.getD 0 []), stoi (toks.getD 1 []), stoi (toks.getD 2 []) with
  | some y, some m, some d => some (y, m, d)
  | _, _, _ => none

/-- Calendar order on (year, month, day): an earlier year, or the same year and an earlier
month, or the same year and month and an earlier day. -/
def dateBefore (a b : Int × Int × Int) : Prop :=
  a.1 < b.1 ∨ (a.1 = b.1 ∧ (a.2.1 < b.2.1 ∨ (a.2.1 = b.2.1 ∧ a.2.2 < b.2.2)))

/-- The daylight-saving span of the US Eastern zone in 2024: from 10 March 02:00 to
3 November 02:00 on the wall clock. -/
def usEastern2024 : List DstSpan := [⟨(124, 2, 10, 2), (124, 10, 3, 2)⟩]

/-- The clock reading of 2024-10-28, half past midnight, daylight time, in the US Eastern
zone. -/
def lateOctoberNight : Tm := ⟨124, 9, 28, 0, true, usEastern2024⟩

/-- A task that recurs weekly. -/
def weeklyTask : Task := ⟨4, "water plants", false, 2, "2024-10-28", "Home", true, "weekly"⟩

/-! ## The ids of the collection under undo -/

/-- The list of ids after the first occurrence of `x` is removed (`eraseFirstId` on ids). -/
def eraseFirstVal (x : Int) : List Int → List Int
  | [] => []
  | y :: ys => if y = x then ys else y :: eraseFirstVal x ys

/-- The list of ids after `x` is inserted at position `i` (`insertAt` on ids). -/
def insertValAt (x : Int) : Nat → List Int → List Int
  | 0, ys => x :: ys
  | _ + 1, [] => [x]
  | i + 1, y :: ys => y :: insertValAt x i ys

/-- The ids of the collection after `applyUndo`, from the ids before. -/
def undoIds (ids : List Int) (a : Action) : List Int :=
  match a.type with
  | ActionType.ADD => eraseFirstVal a.task.id ids
  | ActionType.DELETE =>
    if a.index ≥ 0 ∧ a.index ≤ (ids.length : Int) then insertValAt a.task.id a.index.toNat ids
    else ids
  | ActionType.COMPLETE => ids
  | ActionType.EDIT =>
    if a.index ≥ 0 ∧ a.index < (ids.length : Int) then ids.set a.index.toNat a.task.id
    else ids

/-- A recorded action fits the collection it will be undone on: its snapshot was issued before
counter value `n`; a delete record points into the collection and its task is not there; an
edit record points at the task it is a snapshot of. -/
def RecordOk (n : Int) (ids : List Int) (a : Action) : Prop :=
  a.task.id < n ∧
  match a.type with
  | ActionType.ADD => True
  | ActionType.DELETE => 0 ≤ a.index ∧ a.index ≤ (ids.length : Int) ∧ a.task.id ∉ ids
  | ActionType.COMPLETE => True
  | ActionType.EDIT =>
    0 ≤ a.index ∧ a.index < (ids.length : Int) ∧ ids.get? a.index.toNat = some a.task.id

/-- The invariant of the undo stack (most recent record first) over the ids of the collection:
the ids are pairwise distinct and below the counter, the top record fits, and the same holds
after the top record is undone. -/
def StackOk (n : Int) : List Int → List Action → Prop
  | ids, [] => ids.Nodup ∧ ∀ x ∈ ids, x < n
  | ids, a :: rest =>
    ids.Nodup ∧ (∀ x ∈ ids, x < n) ∧ RecordOk n ids a ∧ StackOk n (undoIds ids a) rest

/-- The invariant of the store: the undo stack fits the collection. -/
def StoreOk (s : ToDoList) : Prop :=
  StackOk s.nextId (s.tasks.map Task.id) s.actionHistory.reverse

/-! # Theorems -/

/-! ## The undo log: what `addToHistory` leaves at the end -/

theorem pushed_getLast (h : List Action) (a : Action) :
    (if (h ++ [a]).length > MAX_HISTORY then (h ++ [a]).tail else h ++ [a]).getLast? = some a := by
  cases h with
  | nil => simp [MAX_HISTORY]
  | cons x xs =>
    by_cases hl : (x :: xs ++ [a]).length > MAX_HISTORY
    · rw [if_pos hl]; simp
    · rw [if_neg hl]; exact List.getLast?_concat (x :: xs)

theorem addToHistory_tasks (s : ToDoList) (ty : ActionType) (t : Task) (i : Int) :
    (addToHistory s ty t i).tasks = s.tasks := rfl

theorem addToHistory_nextId (s : ToDoList) (ty : ActionType) (t : Task) (i : Int) :
    (addToHistory s ty t i).nextId = s.nextId := rfl

theorem addToHistory_getLast (s : ToDoList) (ty : ActionType) (t : Task) (i : Int) :
    (addToHistory s ty t i).actionHistory.getLast? = some ⟨ty, t, i⟩ := by
  unfold addToHistory
  exact pushed_getLast s.actionHistory ⟨ty, t, i⟩

/-- Undo right after a recorded mutation applies the inverse of exactly that record. -/
theorem undo_addToHistory_tasks (s : ToDoList) (ty : ActionType) (t : Task) (i : Int) :
    (undoLastAction (addToHistory s ty t i)).tasks = applyUndo s.tasks ⟨ty, t, i⟩ := by
  unfold undoLastAction
  rw [addToHistory_getLast]
  rfl

theorem insertAt_eraseIdx (ts : List Task) (i : Nat) (t : Task) (h : ts.get? i = some t) :
    insertAt t i (ts.eraseIdx i) = ts := by
  induction ts generalizing i with
  | nil => simp at h
  | cons x xs ih =>
    cases i with
    | zero =>
      simp at h
      simp [insertAt, h]
    | succ j =>
      simp at h
      cases xs with
      | nil => simp at h
      | cons y ys =>
        have := ih j (by simpa using h)
        simp [List.eraseIdx, insertAt] at this ⊢
        exact this

theorem set_set_get (ts : List Task) (i : Nat) (t e : Task) (h : ts.get? i = some t) :
    (ts.set i e).set i t = ts := by
  induction ts generalizing i with
  | nil => simp at h
  | cons x xs ih =>
    cases i with
    | zero => simp at h; simp [h]
    | succ j => simp at h; simp [ih j (by simpa using h)]

theorem eraseFirstId_append_fresh (ts : List Task) (t : Task)
    (h : ∀ x ∈ ts, x.id ≠ t.id) : eraseFirstId t.id (ts ++ [t]) = ts := by
  induction ts with
  | nil => simp [eraseFirstId]
  | cons x xs ih =>
    have hx : x.id ≠ t.id := h x (by simp)
    simp [eraseFirstId, hx]
    exact ih (fun y hy => h y (by simp [hy]))

theorem get?_of_valid (ts : List Task) (idx : Int) (h1 : 1 ≤ idx) (h2 : idx ≤ (ts.length : Int)) :
    ∃ t, ts.get? (idx - 1).toNat = some t := by
  have : (idx - 1).toNat < ts.length := by omega
  exact ⟨ts.get ⟨_, this⟩, List.get?_eq_get this⟩

theorem not_isEmpty_of_valid (ts : List Task) (idx : Int) (h1 : 1 ≤ idx)
    (h2 : idx ≤ (ts.length : Int)) : ts.isEmpty = false := by
  cases ts with
  | nil => simp at h2; omega
  | cons x xs => rfl

/-- C1. For every store and every index `idx` with `1 ≤ idx ≤ size`, `deleteTask idx` followed at
once by `undoLastAction` leaves the task collection equal, element for element and in the same
order, to the collection before the delete: the deleted task is back at its position. -/
theorem delete_then_undo (s : ToDoList) (idx : Int) (h1 : 1 ≤ idx)
    (h2 : idx ≤ (s.tasks.length : Int)) :
    (undoLastAction (deleteTask s idx)).tasks = s.tasks := by
  obtain ⟨t, ht⟩ := get?_of_valid s.tasks idx h1 h2
  have he := not_isEmpty_of_valid s.tasks idx h1 h2
  have hlen : (s.tasks.eraseIdx (idx - 1).toNat).length = s.tasks.length - 1 := by
    rw [List.length_eraseIdx]; simp; omega
  unfold deleteTask
  rw [he, ht]
  simp only [Bool.false_eq_true, if_false]
  rw [if_neg (by omega)]
  rw [undo_addToHistory_tasks]
  simp only [applyUndo]
  rw [if_pos (by rw [hlen]; omega)]
  exact insertAt_eraseIdx s.tasks _ t ht

/-- C2. For every store, every index `idx` with `1 ≤ idx ≤ size` and every single-field edit
(menu choice 1 description, 2 priority, 3 due date, 4 category) with any new value, `editTask`
followed at once by `undoLastAction` leaves the task collection equal to the collection before
the edit. -/
theorem edit_then_undo (s : ToDoList) (idx choice : Int) (text : String) (num : Int)
    (h1 : 1 ≤ idx) (h2 : idx ≤ (s.tasks.length : Int)) (hc1 : 1 ≤ choice) (hc2 : choice ≤ 4) :
    (undoLastAction (editTask s idx choice text num)).tasks = s.tasks := by
  obtain ⟨t, ht⟩ := get?_of_valid s.tasks idx h1 h2
  have he := not_isEmpty_of_valid s.tasks idx h1 h2
  obtain ⟨e, hedit⟩ : ∃ e, applyEdit t choice text num = some e := by
    unfold applyEdit
    have : choice = 1 ∨ choice = 2 ∨ choice = 3 ∨ choice = 4 := by omega
    rcases this with h | h | h | h <;> subst h <;> simp
  unfold editTask
  rw [he, ht]
  simp only [Bool.false_eq_true, if_false]
  rw [if_neg (by omega)]
  simp only [hedit]
  rw [undo_addToHistory_tasks]
  simp only [applyUndo]
  rw [if_pos (by rw [List.length_set]; omega)]
  exact set_set_get s.tasks _ t e ht

/-- C3. For every store in which no task carries the id about to be issued (as is the case when
all ids are below `nextId`) and every task input, `addTask` followed at once by `undoLastAction`
leaves the task collection equal to the collection before the add. -/
theorem add_then_undo (s : ToDoList) (desc : String) (prio : Int) (due category : String)
    (recurring : Char) (recurType : Int) (hfresh : ∀ t ∈ s.tasks, t.id ≠ s.nextId) :
    (undoLastAction (addTask s desc prio due category recurring recurType)).tasks = s.tasks := by
  have hid : (newTaskFromInput s.nextId desc prio due category recurring recurType).id
      = s.nextId := by
    unfold newTaskFromInput
    simp only [Task.ctor, Task.setRecurring]
    split_ifs <;> rfl
  unfold addTask
  rw [undo_addToHistory_tasks]
  simp only [applyUndo]
  apply eraseFirstId_append_fresh
  intro x hx
  rw [hid]
  exact hfresh x hx

theorem markPendingFirstId_append (id : Int) (l r : List Task) (h : ∃ x ∈ l, x.id = id) :
    markPendingFirstId id (l ++ r) = markPendingFirstId id l ++ r := by
  induction l with
  | nil => simp at h
  | cons x xs ih =>
    by_cases hx : x.id = id
    · simp [markPendingFirstId, hx]
    · obtain ⟨y, hy, hyid⟩ := h
      have hy2 : y ∈ xs := by
        rcases List.mem_cons.mp hy with rfl | hmem
        · exact absurd hyid hx
        · exact hmem
      simp [markPendingFirstId, hx, ih ⟨y, hy2, hyid⟩]

theorem markPendingFirstId_set (ts : List Task) (i : Nat) (t e : Task)
    (hd : (ts.map Task.id).Nodup) (h : ts.get? i = some t) (hid : e.id = t.id) :
    markPendingFirstId t.id (ts.set i e) = ts.set i e.markPending := by
  induction ts generalizing i with
  | nil => simp at h
  | cons x xs ih =>
    cases i with
    | zero =>
      simp at h
      simp [markPendingFirstId, hid]
    | succ j =>
      simp at h
      have hmem : t ∈ xs := by
        have := List.getElem?_mem (l := xs) (n := j) (a := t) (by simpa using h)
        exact this
      simp only [List.map_cons, List.nodup_cons] at hd
      have hx : x.id ≠ t.id := by
        intro hxe
        exact hd.1 (by rw [hxe]; exact List.mem_map_of_mem Task.id hmem)
      simp [markPendingFirstId, hx]
      exact ih j hd.2 (by simpa using h)

theorem mem_set_of_get (ts : List Task) (i : Nat) (t e : Task) (h : ts.get? i = some t) :
    e ∈ ts.set i e := by
  induction ts generalizing i with
  | nil => simp at h
  | cons x xs ih =>
    cases i with
    | zero => simp
    | succ j =>
      simp at h
      simp [ih j (by simpa using h)]

/-- The task collection after completing task `idx` and undoing at once. -/
theorem complete_undo_tasks (now : Tm) (s : ToDoList) (idx : Int) (t : Task)
    (hd : (s.tasks.map Task.id).Nodup) (h1 : 1 ≤ idx) (h2 : idx ≤ (s.tasks.length : Int))
    (ht : s.tasks.get? (idx - 1).toNat = some t) :
    (undoLastAction (markTaskCompleted now s idx)).tasks =
      s.tasks.set (idx - 1).toNat { t with isCompleted := false } ++
        (if t.isRecurring then [(t.markCompleted.createNextOccurrence now s.nextId).1] else []) := by
  have he := not_isEmpty_of_valid s.tasks idx h1 h2
  have hset := markPendingFirstId_set s.tasks (idx - 1).toNat t t.markCompleted hd ht rfl
  have hex : ∃ x ∈ s.tasks.set (idx - 1).toNat t.markCompleted, x.id = t.id := by
    exact ⟨t.markCompleted, mem_set_of_get s.tasks _ t _ ht, rfl⟩
  unfold markTaskCompleted
  rw [he, ht]
  simp only [Bool.false_eq_true, if_false]
  rw [if_neg (by omega)]
  by_cases hr : t.isRecurring = true
  · have hr2 : t.markCompleted.isRecurring = true := hr
    rw [if_pos hr2, if_pos hr]
    unfold undoLastAction
    simp only [addToHistory_getLast, addToHistory_tasks, addToHistory_nextId]
    simp only [applyUndo]
    rw [markPendingFirstId_append _ _ _ hex, hset]
    rfl
  · have hr2 : ¬ t.markCompleted.isRecurring = true := hr
    rw [if_neg hr2, if_neg hr]
    rw [undo_addToHistory_tasks]
    simp only [applyUndo, List.append_nil]
    rw [hset]
    rfl

/-- C4. For a collection of size `n` with pairwise distinct ids and an index `idx` with
`1 ≤ idx ≤ n`, after `markTaskCompleted idx` followed at once by `undoLastAction` the first `n`
tasks are the old ones except that task `idx` has `isCompleted = false`; when task `idx` is
recurring the collection has size `n + 1` and its last element is the successor that
`createNextOccurrence` built (undo leaves it in place), and when it is not recurring the size
is `n`. -/
theorem complete_then_undo (now : Tm) (s : ToDoList) (idx : Int)
    (hd : (s.tasks.map Task.id).Nodup) (h1 : 1 ≤ idx) (h2 : idx ≤ (s.tasks.length : Int)) :
    ∃ t, s.tasks.get? (idx - 1).toNat = some t ∧
      ((undoLastAction (markTaskCompleted now s idx)).tasks.take s.tasks.length =
          s.tasks.set (idx - 1).toNat { t with isCompleted := false }) ∧
      (t.isRecurring = true →
        (undoLastAction (markTaskCompleted now s idx)).tasks.length = s.tasks.length + 1 ∧
        (undoLastAction (markTaskCompleted now s idx)).tasks.getLast? =
          some (t.markCompleted.createNextOccurrence now s.nextId).1) ∧
      (t.isRecurring = false →
        (undoLastAction (markTaskCompleted now s idx)).tasks.length = s.tasks.length) := by
  obtain ⟨t, ht⟩ := get?_of_valid s.tasks idx h1 h2
  refine ⟨t, ht, ?_, ?_, ?_⟩
  · rw [complete_undo_tasks now s idx t hd h1 h2 ht]
    rw [List.take_append_of_le_length (by simp)]
    apply List.take_of_length_le
    simp
  · intro hr
    rw [complete_undo_tasks now s idx t hd h1 h2 ht, if_pos hr]
    constructor
    · simp
    · exact List.getLast?_concat _
  · intro hr
    rw [complete_undo_tasks now s idx t hd h1 h2 ht]
    simp [hr]

/-- C5 fails as stated: in a store whose only task (ids distinct, index 1 valid, not recurring)
is already completed, `markTaskCompleted 1` followed at once by `undoLastAction` does not give
back the collection: the task comes out pending. -/
theorem complete_undo_not_inverse :
    (completedOnce.tasks.map Task.id).Nodup ∧
    (1 : Int) ≤ 1 ∧ (1 : Int) ≤ (completedOnce.tasks.length : Int) ∧
    completedOnce.tasks.get? 0 = some ⟨1, "pay rent", true, 1, "2024-01-10", "General", false, ""⟩ ∧
    (undoLastAction (markTaskCompleted ⟨124, 5, 1, 12, false, []⟩ completedOnce 1)).tasks ≠
      completedOnce.tasks := by
  decide

theorem set_get_self (ts : List Task) (i : Nat) (t : Task) (h : ts.get? i = some t) :
    ts.set i t = ts := by
  induction ts generalizing i with
  | nil => simp
  | cons x xs ih =>
    cases i with
    | zero => simp at h; simp [h]
    | succ j => simp at h; simp [ih j (by simpa using h)]

theorem get_set_self (ts : List Task) (i : Nat) (t e : Task) (h : ts.get? i = some t) :
    (ts.set i e).get? i = some e := by
  induction ts generalizing i with
  | nil => simp at h
  | cons x xs ih =>
    cases i with
    | zero => simp
    | succ j => simp at h; simpa using ih j (by simpa using h)

/-- C5, amended. For a collection with pairwise distinct ids and a valid index whose task `t` is
not recurring, `markTaskCompleted idx` followed at once by `undoLastAction` leaves the
collection equal to the old one with the `isCompleted` flag of task `idx` set to `false`; it
is the collection before `markTaskCompleted` exactly when task `idx` was not completed
before. -/
theorem undo_of_complete_resets_flag (now : Tm) (s : ToDoList) (idx : Int) (t : Task)
    (hd : (s.tasks.map Task.id).Nodup) (h1 : 1 ≤ idx) (h2 : idx ≤ (s.tasks.length : Int))
    (ht : s.tasks.get? (idx - 1).toNat = some t) (hr : t.isRecurring = false) :
    (undoLastAction (markTaskCompleted now s idx)).tasks =
        s.tasks.set (idx - 1).toNat { t with isCompleted := false } ∧
    ((undoLastAction (markTaskCompleted now s idx)).tasks = s.tasks ↔ t.isCompleted = false) := by
  have hmain : (undoLastAction (markTaskCompleted now s idx)).tasks =
      s.tasks.set (idx - 1).toNat { t with isCompleted := false } := by
    rw [complete_undo_tasks now s idx t hd h1 h2 ht]
    simp [hr]
  refine ⟨hmain, ?_⟩
  rw [hmain]
  constructor
  · intro heq
    have hg := get_set_self s.tasks (idx - 1).toNat t { t with isCompleted := false } ht
    rw [heq, ht] at hg
    have := congrArg Task.isCompleted (Option.some.inj hg)
    exact this
  · intro hc
    have : ({ t with isCompleted := false } : Task) = t := by
      cases t
      simp at hc
      simp [hc]
    rw [this]
    exact set_get_self s.tasks _ t ht

theorem addToHistory_history (s : ToDoList) (ty : ActionType) (t : Task) (i : Int)
    (hb : s.actionHistory.length ≤ MAX_HISTORY) :
    (addToHistory s ty t i).actionHistory =
      (s.actionHistory ++ [Action.mk ty t i]).drop
        ((s.actionHistory ++ [Action.mk ty t i]).length - MAX_HISTORY) := by
  unfold addToHistory
  simp only
  by_cases hl : (s.actionHistory ++ [Action.mk ty t i]).length > MAX_HISTORY
  · rw [if_pos hl]
    have : (s.actionHistory ++ [Action.mk ty t i]).length - MAX_HISTORY = 1 := by
      simp at hl ⊢; omega
    rw [this, List.drop_one]
  · rw [if_neg hl]
    have : (s.actionHistory ++ [Action.mk ty t i]).length - MAX_HISTORY = 0 := by
      simp at hl ⊢; omega
    rw [this, List.drop_zero]

theorem addToHistory_length_le (s : ToDoList) (ty : ActionType) (t : Task) (i : Int)
    (hb : s.actionHistory.length ≤ MAX_HISTORY) :
    (addToHistory s ty t i).actionHistory.length ≤ MAX_HISTORY := by
  rw [addToHistory_history s ty t i hb]
  simp [MAX_HISTORY] at hb ⊢
  omega

theorem undo_history (s : ToDoList) :
    (undoLastAction s).actionHistory = s.actionHistory.dropLast := by
  unfold undoLastAction
  cases hlast : s.actionHistory.getLast? with
  | none =>
    have : s.actionHistory = [] := List.getLast?_eq_none_iff.mp hlast
    simp [this]
  | some a => rfl

theorem undo_of_empty (s : ToDoList) (h : s.actionHistory = []) : undoLastAction s = s := by
  unfold undoLastAction
  rw [h]
  rfl

theorem undoTimes_history_length (k : Nat) (s : ToDoList) :
    (undoTimes k s).actionHistory.length = s.actionHistory.length - k := by
  induction k generalizing s with
  | zero => rfl
  | succ n ih =>
    simp only [undoTimes]
    rw [ih, undo_history, List.length_dropLast]
    omega

/-- C6. The action history never holds more than `MAX_HISTORY = 10` entries: the bound holds in
the initial store and every menu call (`addTask`, `editTask`, `deleteTask`,
`markTaskCompleted`, `undoLastAction`, `logoutUser`), on every input, preserves it. -/
theorem history_bounded (users : List (String × User)) (files : List (String × String))
    (s : ToDoList) (op : Op) (hb : s.actionHistory.length ≤ MAX_HISTORY) :
    (ToDoList.init users files).actionHistory.length ≤ MAX_HISTORY ∧
    (applyOp s op).actionHistory.length ≤ MAX_HISTORY := by
  refine ⟨by simp [ToDoList.init], ?_⟩
  cases op with
  | add desc prio due category recurring recurType =>
    simp only [applyOp, addTask]
    exact addToHistory_length_le _ _ _ _ hb
  | edit idx choice text num =>
    simp only [applyOp, editTask]
    split_ifs
    · exact hb
    · exact hb
    · split
      · exact hb
      · split
        · exact hb
        · exact addToHistory_length_le _ _ _ _ hb
  | delete idx =>
    simp only [applyOp, deleteTask]
    split_ifs
    · exact hb
    · exact hb
    · split
      · exact hb
      · exact addToHistory_length_le _ _ _ _ hb
  | complete now idx =>
    simp only [applyOp, markTaskCompleted]
    split_ifs
    · exact hb
    · exact hb
    · split
      · exact hb
      · split_ifs
        · exact addToHistory_length_le _ _ _ _ hb
        · exact addToHistory_length_le _ _ _ _ hb
  | undo =>
    simp only [applyOp]
    rw [undo_history, List.length_dropLast]
    omega
  | logout =>
    simp only [applyOp, logoutUser]
    split_ifs
    · simp
    · exact hb

/-- A successful mutation leaves the history that `addToHistory` builds from its record. -/
theorem applyOp_history (s : ToDoList) (op : Op) (a : Action) (h : opRecord s op = some a) :
    (applyOp s op).actionHistory = (addToHistory s a.type a.task a.index).actionHistory := by
  cases op with
  | add desc prio due category recurring recurType =>
    simp only [opRecord, Option.some.injEq] at h
    subst h
    rfl
  | edit idx choice text num =>
    simp only [opRecord] at h
    split_ifs at h with hv
    obtain ⟨t, ht⟩ := get?_of_valid s.tasks idx hv.1 hv.2.1
    have he := not_isEmpty_of_valid s.tasks idx hv.1 hv.2.1
    rw [ht] at h
    simp only [Option.map_some', Option.some.injEq] at h
    subst h
    obtain ⟨e, hedit⟩ : ∃ e, applyEdit t choice text num = some e := by
      unfold applyEdit
      have : choice = 1 ∨ choice = 2 ∨ choice = 3 ∨ choice = 4 := by omega
      rcases this with h | h | h | h <;> subst h <;> simp
    simp only [applyOp, editTask]
    rw [he, ht]
    simp only [Bool.false_eq_true, if_false]
    rw [if_neg (by omega)]
    simp only [hedit]
    rfl
  | delete idx =>
    simp only [opRecord] at h
    split_ifs at h with hv
    obtain ⟨t, ht⟩ := get?_of_valid s.tasks idx hv.1 hv.2
    have he := not_isEmpty_of_valid s.tasks idx hv.1 hv.2
    rw [ht] at h
    simp only [Option.map_some', Option.some.injEq] at h
    subst h
    simp only [applyOp, deleteTask]
    rw [he, ht]
    simp only [Bool.false_eq_true, if_false]
    rw [if_neg (by omega)]
    rfl
  | complete now idx =>
    simp only [opRecord] at h
    split_ifs at h with hv
    obtain ⟨t, ht⟩ := get?_of_valid s.tasks idx hv.1 hv.2
    have he := not_isEmpty_of_valid s.tasks idx hv.1 hv.2
    rw [ht] at h
    simp only [Option.map_some', Option.some.injEq] at h
    subst h
    simp only [applyOp, markTaskCompleted]
    rw [he, ht]
    simp only [Bool.false_eq_true, if_false]
    rw [if_neg (by omega)]
    split_ifs <;> rfl
  | undo => simp [opRecord] at h
  | logout => simp [opRecord] at h

theorem recordsOf_length (s : ToDoList) (ops : List Op) (recs : List Action)
    (h : recordsOf s ops = some recs) : recs.length = ops.length := by
  induction ops generalizing s recs with
  | nil => simp [recordsOf] at h; simp [← h]
  | cons op ops ih =>
    simp only [recordsOf] at h
    cases ha : opRecord s op with
    | none => simp [ha] at h
    | some a =>
      simp only [ha] at h
      cases hr : recordsOf (applyOp s op) ops with
      | none => simp [hr] at h
      | some as =>
        simp [hr] at h
        subst h
        simp [ih _ _ hr]

/-- After a run of successful mutations the history is the last `MAX_HISTORY` entries of the
old history followed by the new records. -/
theorem runOps_history (s : ToDoList) (ops : List Op) (recs : List Action)
    (hb : s.actionHistory.length ≤ MAX_HISTORY) (h : recordsOf s ops = some recs) :
    (runOps s ops).actionHistory =
      (s.actionHistory ++ recs).drop ((s.actionHistory ++ recs).length - MAX_HISTORY) := by
  induction ops generalizing s recs with
  | nil =>
    simp [recordsOf] at h
    subst h
    simp only [runOps, List.foldl_nil, List.append_nil]
    rw [Nat.sub_eq_zero_of_le hb, List.drop_zero]
  | cons op ops ih =>
    simp only [recordsOf] at h
    cases ha : opRecord s op with
    | none => simp [ha] at h
    | some a =>
      simp only [ha] at h
      cases hr : recordsOf (applyOp s op) ops with
      | none => simp [hr] at h
      | some as =>
        simp [hr] at h
        subst h
        have h1 := applyOp_history s op a ha
        have h2 := addToHistory_history s a.type a.task a.index hb
        have hb1 : (applyOp s op).actionHistory.length ≤ MAX_HISTORY := by
          rw [h1]; exact addToHistory_length_le _ _ _ _ hb
        have := ih (applyOp s op) as hb1 hr
        simp only [runOps, List.foldl_cons] at this ⊢
        rw [this, h1, h2]
        have hk : (s.actionHistory ++ [Action.mk a.type a.task a.index]).length - MAX_HISTORY
            ≤ (s.actionHistory ++ [Action.mk a.type a.task a.index]).length := Nat.sub_le _ _
        rw [← List.drop_append_of_le_length hk, List.drop_drop]
        have e1 : s.actionHistory ++ [Action.mk a.type a.task a.index] ++ as
            = s.actionHistory ++ a :: as := by simp
        rw [e1]
        congr 1
        simp [MAX_HISTORY] at hb ⊢
        omega

/-- C7. From a store whose history is within its bound, after eleven successful mutations (each
an add, or an edit, delete or complete with a valid index, recording the actions `recs`) the
history consists of exactly the records of the 2nd to 11th mutation in the order they were
made; the next ten calls of `undoLastAction` each find an entry to pop, after them the history
is empty, and the eleventh call changes nothing. -/
theorem eleven_mutations (s : ToDoList) (ops : List Op) (recs : List Action)
    (hb : s.actionHistory.length ≤ MAX_HISTORY) (hlen : ops.length = 11)
    (h : recordsOf s ops = some recs) :
    (runOps s ops).actionHistory = recs.drop 1 ∧
    (∀ k, k < 10 → (undoTimes k (runOps s ops)).actionHistory ≠ []) ∧
    (undoTimes 10 (runOps s ops)).actionHistory = [] ∧
    undoTimes 11 (runOps s ops) = undoTimes 10 (runOps s ops) := by
  have hrl : recs.length = 11 := by rw [recordsOf_length s ops recs h, hlen]
  have hh : (runOps s ops).actionHistory = recs.drop 1 := by
    rw [runOps_history s ops recs hb h]
    have : (s.actionHistory ++ recs).length - MAX_HISTORY = s.actionHistory.length + 1 := by
      simp [MAX_HISTORY, hrl]
    rw [this, List.drop_append]
  have hl : (runOps s ops).actionHistory.length = 10 := by
    rw [hh]; simp [hrl]
  have h10 : (undoTimes 10 (runOps s ops)).actionHistory = [] := by
    apply List.eq_nil_of_length_eq_zero
    rw [undoTimes_history_length, hl]
  refine ⟨hh, ?_, h10, ?_⟩
  · intro k hk hnil
    have := undoTimes_history_length k (runOps s ops)
    rw [hnil, hl] at this
    simp at this
    omega
  · have : ∀ n s, undoTimes (n + 1) s = undoLastAction (undoTimes n s) := by
      intro n
      induction n with
      | zero => intro s; rfl
      | succ m ih => intro s; exact ih (undoLastAction s)
    rw [this 10, undo_of_empty _ h10]

theorem newTaskFromInput_id (n : Int) (desc : String) (prio : Int) (due category : String)
    (recurring : Char) (recurType : Int) :
    (newTaskFromInput n desc prio due category recurring recurType).id = n := by
  unfold newTaskFromInput
  simp only [Task.ctor, Task.setRecurring]
  split_ifs <;> rfl

theorem taskOfTokens_id (n : Int) (tokens : List (List Char)) (t : Task)
    (h : taskOfTokens n tokens = some t) : t.id = n := by
  unfold taskOfTokens at h
  split at h
  · exact absurd h (by simp)
  · simp only [Option.some.injEq] at h
    subst h
    simp only [Task.ctor, Task.markCompleted, Task.setRecurring]
    split_ifs <;> rfl

theorem loadLines_ids (lines : List (List Char)) (acc : List Task) (n : Int)
    (ts : List Task) (m : Int) (h : loadLines lines acc n = some (ts, m)) :
    ∃ new, ts = acc ++ new ∧
      new.map Task.id = (List.range new.length).map (fun k : Nat => n + (k : Int)) ∧
      m = n + (new.length : Int) := by
  induction lines generalizing acc n with
  | nil =>
    simp only [loadLines, Option.some.injEq, Prod.mk.injEq] at h
    exact ⟨[], by simp [h.1], by simp, by simp [h.2]⟩
  | cons line lines ih =>
    simp only [loadLines] at h
    split_ifs at h with h6
    · cases ht : taskOfTokens n (getlineAll '|' line) with
      | none => simp [ht] at h
      | some task =>
        simp only [ht] at h
        obtain ⟨new, h1, h2, h3⟩ := ih _ _ h
        refine ⟨task :: new, by simp [h1], ?_, ?_⟩
        · rw [List.map_cons, h2, taskOfTokens_id n _ task ht]
          simp only [List.length_cons, List.range_succ_eq_map, List.map_cons, List.map_map]
          congr 1
          · simp
          · apply List.map_congr_left
            intro k _
            simp only [Function.comp, Nat.succ_eq_add_one]
            push_cast
            ring
        · rw [h3]; simp only [List.length_cons]; push_cast; ring
    · exact ih _ _ h

theorem applyOp_nextId_mono (s : ToDoList) (op : Op) : s.nextId ≤ (applyOp s op).nextId := by
  cases op with
  | add desc prio due category recurring recurType =>
    simp only [applyOp, addTask, addToHistory_nextId]
    omega
  | edit idx choice text num =>
    simp only [applyOp, editTask]
    split_ifs
    · exact le_refl _
    · exact le_refl _
    · split
      · exact le_refl _
      · split
        · exact le_refl _
        · exact le_refl _
  | delete idx =>
    simp only [applyOp, deleteTask]
    split_ifs
    · exact le_refl _
    · exact le_refl _
    · split
      · exact le_refl _
      · exact le_refl _
  | complete now idx =>
    simp only [applyOp, markTaskCompleted]
    split_ifs
    · exact le_refl _
    · exact le_refl _
    · split
      · exact le_refl _
      · split_ifs with hr
        · simp only [Task.createNextOccurrence, hr, addToHistory_nextId]
          simp
        · exact le_refl _
  | undo =>
    simp only [applyOp, undoLastAction]
    split <;> exact le_refl _
  | logout =>
    simp only [applyOp, logoutUser, saveTasks]
    split_ifs <;> exact le_refl _

theorem runOps_nextId_mono (s : ToDoList) (ops : List Op) : s.nextId ≤ (runOps s ops).nextId := by
  induction ops generalizing s with
  | nil => exact le_refl _
  | cons op ops ih =>
    simp only [runOps, List.foldl_cons]
    exact le_trans (applyOp_nextId_mono s op) (ih (applyOp s op))

/-- C8. Ids are issued in increasing order and never reused. A task created by `addTask`, each
task created by `loadTasks`, and the successor created when a recurring task is completed
receive the current value of the counter, and the counter then goes up by exactly one per
task; completing a task that is not recurring, `undoLastAction`, `deleteTask` and `editTask`
leave the counter unchanged; and whatever menu calls are made between two adds (an undo, for
one), the task added second gets an id strictly greater than the task added first. -/
theorem ids_issued_once :
    (∀ (s : ToDoList) (desc : String) (prio : Int) (due category : String) (recurring : Char)
        (recurType : Int),
        (addTask s desc prio due category recurring recurType).tasks =
          s.tasks ++ [newTaskFromInput s.nextId desc prio due category recurring recurType] ∧
        (newTaskFromInput s.nextId desc prio due category recurring recurType).id = s.nextId ∧
        (addTask s desc prio due category recurring recurType).nextId = s.nextId + 1) ∧
    (∀ (s s1 : ToDoList), s.currentUser.isEmpty = false → loadTasks s = some s1 →
        s1.tasks.map Task.id =
          (List.range s1.tasks.length).map (fun k : Nat => s.nextId + (k : Int)) ∧
        s1.nextId = s.nextId + (s1.tasks.length : Int)) ∧
    (∀ (now : Tm) (s : ToDoList) (idx : Int) (t : Task), 1 ≤ idx → idx ≤ (s.tasks.length : Int) →
        s.tasks.get? (idx - 1).toNat = some t → t.isRecurring = true →
        ∃ next, (markTaskCompleted now s idx).tasks =
            s.tasks.set (idx - 1).toNat t.markCompleted ++ [next] ∧
          next.id = s.nextId ∧ (markTaskCompleted now s idx).nextId = s.nextId + 1) ∧
    (∀ (now : Tm) (s : ToDoList) (idx : Int) (t : Task),
        s.tasks.get? (idx - 1).toNat = some t → t.isRecurring = false →
        (markTaskCompleted now s idx).nextId = s.nextId) ∧
    (∀ (s : ToDoList) (idx choice : Int) (text : String) (num : Int),
        (undoLastAction s).nextId = s.nextId ∧ (deleteTask s idx).nextId = s.nextId ∧
        (editTask s idx choice text num).nextId = s.nextId) ∧
    (∀ (s : ToDoList) (ops : List Op) (desc : String) (prio : Int) (due category : String)
        (recurring : Char) (recurType : Int) (desc2 : String) (prio2 : Int)
        (due2 category2 : String) (recurring2 : Char) (recurType2 : Int),
        (newTaskFromInput s.nextId desc prio due category recurring recurType).id <
          (newTaskFromInput
            (runOps (addTask s desc prio due category recurring recurType) ops).nextId
            desc2 prio2 due2 category2 recurring2 recurType2).id) := by
  refine ⟨?_, ?_, ?_, ?_, ?_, ?_⟩
  · intro s desc prio due category recurring recurType
    exact ⟨rfl, newTaskFromInput_id _ _ _ _ _ _ _, rfl⟩
  · intro s s1 hu hl
    unfold loadTasks at hl
    rw [hu] at hl
    simp only [Bool.false_eq_true, if_false] at hl
    cases hf : readFile s.files (s.currentUser ++ "_tasks.txt") with
    | none =>
      simp only [hf, Option.some.injEq] at hl
      subst hl
      simp
    | some content =>
      simp only [hf] at hl
      cases hr : loadLines (getlineAll (Char.ofNat 10) content.data) [] s.nextId with
      | none => simp [hr] at hl
      | some r =>
        simp only [hr, Option.some.injEq] at hl
        subst hl
        obtain ⟨new, h1, h2, h3⟩ := loadLines_ids _ _ _ r.1 r.2 hr
        simp only [List.nil_append] at h1
        simp only
        rw [h1]
        exact ⟨h2, h3⟩
  · intro now s idx t h1 h2 ht hr
    have he := not_isEmpty_of_valid s.tasks idx h1 h2
    have hr2 : t.markCompleted.isRecurring = true := hr
    refine ⟨(t.markCompleted.createNextOccurrence now s.nextId).1, ?_, ?_, ?_⟩
    · unfold markTaskCompleted
      rw [he, ht]
      simp only [Bool.false_eq_true, if_false]
      rw [if_neg (by omega), if_pos hr2]
      rfl
    · simp [Task.createNextOccurrence, hr2]
    · unfold markTaskCompleted
      rw [he, ht]
      simp only [Bool.false_eq_true, if_false]
      rw [if_neg (by omega), if_pos hr2]
      simp [Task.createNextOccurrence, hr2, addToHistory_nextId]
  · intro now s idx t ht hr
    have hr2 : ¬ t.markCompleted.isRecurring = true := by
      show ¬ t.isRecurring = true
      simp [hr]
    unfold markTaskCompleted
    split_ifs
    · rfl
    · rfl
    · rw [ht]
      simp only
      rw [if_neg hr2]
      rfl
  · intro s idx choice text num
    refine ⟨?_, ?_, ?_⟩
    · unfold undoLastAction
      split <;> rfl
    · unfold deleteTask
      split_ifs
      · rfl
      · rfl
      · split <;> rfl
    · unfold editTask
      split_ifs
      · rfl
      · rfl
      · split
        · rfl
        · split <;> rfl
  · intro s ops desc prio due category recurring recurType desc2 prio2 due2 category2 recurring2
      recurType2
    rw [newTaskFromInput_id, newTaskFromInput_id]
    have := runOps_nextId_mono (addTask s desc prio due category recurring recurType) ops
    have h2 : (addTask s desc prio due category recurring recurType).nextId = s.nextId + 1 := rfl
    omega

theorem isDigit_bounds (c : Char) (h : isDigit c = true) : 48 ≤ c.toNat ∧ c.toNat ≤ 57 := by
  simpa [isDigit] using h

theorem isDigit_ne_dash (c : Char) (h : isDigit c = true) : c ≠ '-' := by
  rintro rfl
  exact absurd h (by decide)

theorem isDigit_ne_plus (c : Char) (h : isDigit c = true) : c ≠ '+' := by
  rintro rfl
  exact absurd h (by decide)

theorem isDigit_not_space (c : Char) (h : isDigit c = true) : isSpace c = false := by
  have hb := isDigit_bounds c h
  simp only [isSpace, Bool.or_eq_false_iff, Bool.and_eq_false_imp, beq_eq_false_iff_ne,
    decide_eq_true_eq, decide_eq_false_iff_not]
  constructor
  · omega
  · intro _; omega

theorem digitVal_le (c : Char) (h : isDigit c = true) : digitVal c ≤ 9 := by
  have hb := isDigit_bounds c h
  unfold digitVal
  omega

theorem decimalValue_concat (ds : List Char) (c : Char) :
    decimalValue (ds ++ [c]) = 10 * decimalValue ds + digitVal c := by
  simp [decimalValue, List.foldl_append]

theorem decimalValue_lt (ds : List Char) (h : ∀ c ∈ ds, isDigit c = true) :
    decimalValue ds < 10 ^ ds.length := by
  induction ds using List.reverseRecOn with
  | nil => simp [decimalValue]
  | append_singleton ds c ih =>
    rw [decimalValue_concat]
    have h1 := ih (fun x hx => h x (by simp [hx]))
    have h2 := digitVal_le c (h c (by simp))
    simp only [List.length_append, List.length_singleton, pow_succ]
    omega

/-- On a non-empty run of at most nine digits `stoi` does not throw and returns its decimal
value. -/
theorem stoi_of_digits (ds : List Char) (h : ∀ c ∈ ds, isDigit c = true) (hne : ds ≠ [])
    (hlen : ds.length ≤ 9) : stoi ds = some (decimalValue ds : Int) := by
  cases ds with
  | nil => exact absurd rfl hne
  | cons c cs =>
    have hc : isDigit c = true := h c (by simp)
    have hdrop : (c :: cs).dropWhile isSpace = c :: cs := by
      simp [List.dropWhile, isDigit_not_space c hc]
    have hsign : stoiSign (c :: cs) = (false, c :: cs) := by
      simp [stoiSign, isDigit_ne_dash c hc, isDigit_ne_plus c hc]
    have htake : (c :: cs).takeWhile isDigit = c :: cs := by
      rw [List.takeWhile_eq_self_iff]
      exact h
    have hlt := decimalValue_lt (c :: cs) h
    have hpow : 10 ^ (c :: cs).length ≤ 10 ^ 9 := Nat.pow_le_pow_right (by norm_num) hlen
    have hv : (decimalValue (c :: cs) : Int) < 1000000000 := by
      have : decimalValue (c :: cs) < 1000000000 := lt_of_lt_of_le hlt (by norm_num at hpow ⊢; exact hpow)
      exact_mod_cast this
    unfold stoi
    simp only [hdrop, hsign, htake]
    simp only [List.isEmpty_cons, Bool.false_eq_true, if_false]
    rw [if_pos]
    constructor
    · unfold INT_MIN; omega
    · unfold INT_MAX; omega

theorem matchesDatePattern_iff (cs : List Char) :
    matchesDatePattern cs = true ↔
      ∃ y1 y2 y3 y4 m1 m2 d1 d2 : Char,
        cs = [y1, y2, y3, y4, '-', m1, m2, '-', d1, d2] ∧
        isDigit y1 = true ∧ isDigit y2 = true ∧ isDigit y3 = true ∧ isDigit y4 = true ∧
        isDigit m1 = true ∧ isDigit m2 = true ∧ isDigit d1 = true ∧ isDigit d2 = true := by
  constructor
  · intro h
    unfold matchesDatePattern at h
    split at h
    · rename_i y1 y2 y3 y4 s1 m1 m2 s2 d1 d2
      simp only [Bool.and_eq_true, beq_iff_eq] at h
      obtain ⟨⟨⟨⟨⟨⟨⟨⟨⟨h1, h2⟩, h3⟩, h4⟩, h5⟩, h6⟩, h7⟩, h8⟩, h9⟩, h10⟩ := h
      subst h5 h8
      exact ⟨y1, y2, y3, y4, m1, m2, d1, d2, rfl, h1, h2, h3, h4, h6, h7, h9, h10⟩
    · exact absurd h (by simp)
  · rintro ⟨y1, y2, y3, y4, m1, m2, d1, d2, rfl, h1, h2, h3, h4, h6, h7, h9, h10⟩
    simp [matchesDatePattern, h1, h2, h3, h4, h6, h7, h9, h10]

/-- On a text of the date shape `isValidDate` is the range check on the values of the month and
day digits. -/
theorem isValidDate_of_shape (y1 y2 y3 y4 m1 m2 d1 d2 : Char)
    (h1 : isDigit y1 = true) (h2 : isDigit y2 = true) (h3 : isDigit y3 = true)
    (h4 : isDigit y4 = true) (h6 : isDigit m1 = true) (h7 : isDigit m2 = true)
    (h9 : isDigit d1 = true) (h10 : isDigit d2 = true) :
    isValidDate (String.mk [y1, y2, y3, y4, '-', m1, m2, '-', d1, d2]) =
      dateRangeOk ((10 * digitVal m1 + digitVal m2 : Nat) : Int)
        ((10 * digitVal d1 + digitVal d2 : Nat) : Int) := by
  have hp : matchesDatePattern [y1, y2, y3, y4, '-', m1, m2, '-', d1, d2] = true :=
    (matchesDatePattern_iff _).mpr ⟨y1, y2, y3, y4, m1, m2, d1, d2, rfl, h1, h2, h3, h4, h6, h7,
      h9, h10⟩
  have hsplit : getlineAll '-' [y1, y2, y3, y4, '-', m1, m2, '-', d1, d2] =
      [[y1, y2, y3, y4], [m1, m2], [d1, d2]] := by
    simp [getlineAll, isDigit_ne_dash _ h1, isDigit_ne_dash _ h2, isDigit_ne_dash _ h3,
      isDigit_ne_dash _ h4, isDigit_ne_dash _ h6, isDigit_ne_dash _ h7, isDigit_ne_dash _ h9,
      isDigit_ne_dash _ h10]
  have sy := stoi_of_digits [y1, y2, y3, y4] (by simp [h1, h2, h3, h4]) (by simp) (by simp)
  have sm := stoi_of_digits [m1, m2] (by simp [h6, h7]) (by simp) (by simp)
  have sd := stoi_of_digits [d1, d2] (by simp [h9, h10]) (by simp) (by simp)
  have vm : decimalValue [m1, m2] = 10 * digitVal m1 + digitVal m2 := by simp [decimalValue]
  have vd : decimalValue [d1, d2] = 10 * digitVal d1 + digitVal d2 := by simp [decimalValue]
  unfold isValidDate
  simp only [hp, hsplit, Bool.not_true, Bool.false_eq_true, if_false, List.getD_cons_zero,
    List.getD_cons_succ, sy, sm, sd, vm, vd]

theorem dateRangeOk_iff (m d : Nat) :
    dateRangeOk (m : Int) (d : Int) = true ↔
      1 ≤ m ∧ m ≤ 12 ∧ 1 ≤ d ∧ d ≤ 31 ∧ ((m = 4 ∨ m = 6 ∨ m = 9 ∨ m = 11) → d ≤ 30) ∧
        (m = 2 → d ≤ 29) := by
  unfold dateRangeOk
  split_ifs with a b c
  · simp only [Bool.false_eq_true, false_iff]; omega
  · simp only [Bool.false_eq_true, false_iff]; omega
  · simp only [Bool.false_eq_true, false_iff]; omega
  · simp only [true_iff]; omega

theorem isValidDate_iff (s : String) : isValidDate s = true ↔ SpecValidDate s := by
  constructor
  · intro h
    have hp : matchesDatePattern s.data = true := by
      unfold isValidDate at h
      by_contra hn
      simp [hn] at h
    obtain ⟨y1, y2, y3, y4, m1, m2, d1, d2, hs, h1, h2, h3, h4, h6, h7, h9, h10⟩ :=
      (matchesDatePattern_iff _).mp hp
    have hs2 : s = String.mk [y1, y2, y3, y4, '-', m1, m2, '-', d1, d2] := by
      cases s; simp only at hs; rw [hs]
    rw [hs2, isValidDate_of_shape y1 y2 y3 y4 m1 m2 d1 d2 h1 h2 h3 h4 h6 h7 h9 h10,
      dateRangeOk_iff] at h
    exact ⟨y1, y2, y3, y4, m1, m2, d1, d2, hs, h1, h2, h3, h4, h6, h7, h9, h10, h⟩
  · rintro ⟨y1, y2, y3, y4, m1, m2, d1, d2, hs, h1, h2, h3, h4, h6, h7, h9, h10, h⟩
    have hs2 : s = String.mk [y1, y2, y3, y4, '-', m1, m2, '-', d1, d2] := by
      cases s; simp only at hs; rw [hs]
    rw [hs2, isValidDate_of_shape y1 y2 y3 y4 m1 m2 d1 d2 h1 h2 h3 h4 h6 h7 h9 h10,
      dateRangeOk_iff]
    exact h

/-- C9. The function `isValidDate` returns `true` exactly on the texts the specification
describes: ten characters of the shape `DDDD-DD-DD` with month value in `1..12`, day value in
`1..31`, day at most 30 in months 4, 6, 9 and 11 and at most 29 in month 2; the year digits
are not constrained. -/
theorem isValidDate_spec (s : String) :
    (isValidDate s = true ↔ SpecValidDate s) ∧
    (SpecValidDate s → s.length = 10) := by
  refine ⟨isValidDate_iff s, ?_⟩
  rintro ⟨y1, y2, y3, y4, m1, m2, d1, d2, hs, _⟩
  simp [String.length, hs]

/-- No text that ends in `-02-30` is accepted, whatever stands for the year. -/
theorem feb30_rejected (y : String) : isValidDate (y ++ "-02-30") = false := by
  by_contra hne
  have h : isValidDate (y ++ "-02-30") = true := by
    cases hv : isValidDate (y ++ "-02-30") with
    | true => rfl
    | false => exact absurd hv hne
  obtain ⟨y1, y2, y3, y4, m1, m2, d1, d2, hs, -, -, -, -, -, -, -, -, -, -, -, -, -, hfeb⟩ :=
    (isValidDate_iff _).mp h
  rw [String.data_append] at hs
  have hs2 : y.data ++ ['-', '0', '2', '-', '3', '0'] =
      [y1, y2, y3, y4] ++ ['-', m1, m2, '-', d1, d2] := hs
  obtain ⟨-, hr⟩ := List.append_inj' hs2 rfl
  simp only [List.cons.injEq, true_and, and_true] at hr
  obtain ⟨rfl, rfl, rfl, rfl⟩ := hr
  have := hfeb (by decide)
  revert this
  decide

/-- C10 fails as stated: `isValidDate "2023-02-30"` is `false`, and there is no year text at all
for which February 30 is accepted. -/
theorem feb30_not_accepted :
    isValidDate "2023-02-30" = false ∧ ¬ ∃ year : String, isValidDate (year ++ "-02-30") = true := by
  refine ⟨by decide, ?_⟩
  rintro ⟨year, h⟩
  rw [feb30_rejected year] at h
  exact absurd h (by decide)

/-- C10, amended. Date validation rejects February 30 for every year; the day it accepts in
February of every four-digit year, leap or not, is the 29th. -/
theorem february_day_cap (year : String) (y1 y2 y3 y4 : Char)
    (h1 : isDigit y1 = true) (h2 : isDigit y2 = true) (h3 : isDigit y3 = true)
    (h4 : isDigit y4 = true) :
    isValidDate (year ++ "-02-30") = false ∧
    isValidDate (String.mk [y1, y2, y3, y4, '-', '0', '2', '-', '2', '9']) = true := by
  refine ⟨feb30_rejected year, ?_⟩
  rw [isValidDate_of_shape y1 y2 y3 y4 '0' '2' '2' '9' h1 h2 h3 h4 (by decide) (by decide)
    (by decide) (by decide)]
  decide

/-- The year 2023, which is not a leap year. -/
theorem february_day_cap_witness :
    isDigit '2' = true ∧ isDigit '0' = true ∧ isDigit '2' = true ∧ isDigit '3' = true ∧
    isValidDate ("2023" ++ "-02-30") = false ∧ isValidDate "2023-02-29" = true :=
  ⟨by decide, by decide, by decide, by decide,
    february_day_cap "2023" '2' '0' '2' '3' (by decide) (by decide) (by decide) (by decide)⟩

/-- Deleting the second of three tasks and undoing. -/
theorem delete_then_undo_witness :
    (1 : Int) ≤ 2 ∧ (2 : Int) ≤ (sampleStore.tasks.length : Int) ∧
    (undoLastAction (deleteTask sampleStore 2)).tasks = sampleStore.tasks :=
  ⟨by decide, by decide, delete_then_undo sampleStore 2 (by decide) (by decide)⟩

/-- Editing the priority of the third task and undoing. -/
theorem edit_then_undo_witness :
    (1 : Int) ≤ 3 ∧ (3 : Int) ≤ (sampleStore.tasks.length : Int) ∧ (1 : Int) ≤ 2 ∧ (2 : Int) ≤ 4 ∧
    (undoLastAction (editTask sampleStore 3 2 "" 1)).tasks = sampleStore.tasks :=
  ⟨by decide, by decide, by decide, by decide,
    edit_then_undo sampleStore 3 2 "" 1 (by decide) (by decide) (by decide) (by decide)⟩

/-- Adding a weekly task and undoing. -/
theorem add_then_undo_witness :
    (∀ t ∈ sampleStore.tasks, t.id ≠ sampleStore.nextId) ∧
    (undoLastAction (addTask sampleStore "buy milk" 2 "2024-03-01" "" 'y' 2)).tasks =
      sampleStore.tasks :=
  ⟨by decide, add_then_undo sampleStore "buy milk" 2 "2024-03-01" "" 'y' 2 (by decide)⟩

/-- Completing the recurring first task and undoing. -/
theorem complete_then_undo_witness :
    (sampleStore.tasks.map Task.id).Nodup ∧ (1 : Int) ≤ 1 ∧
    (1 : Int) ≤ (sampleStore.tasks.length : Int) ∧
    ∃ t, sampleStore.tasks.get? ((1 : Int) - 1).toNat = some t ∧
      ((undoLastAction (markTaskCompleted ⟨124, 5, 1, 12, false, []⟩ sampleStore 1)).tasks.take
          sampleStore.tasks.length =
          sampleStore.tasks.set ((1 : Int) - 1).toNat { t with isCompleted := false }) ∧
      (t.isRecurring = true →
        (undoLastAction (markTaskCompleted ⟨124, 5, 1, 12, false, []⟩ sampleStore 1)).tasks.length =
          sampleStore.tasks.length + 1 ∧
        (undoLastAction (markTaskCompleted ⟨124, 5, 1, 12, false, []⟩ sampleStore 1)).tasks.getLast? =
          some (t.markCompleted.createNextOccurrence ⟨124, 5, 1, 12, false, []⟩ sampleStore.nextId).1) ∧
      (t.isRecurring = false →
        (undoLastAction (markTaskCompleted ⟨124, 5, 1, 12, false, []⟩ sampleStore 1)).tasks.length =
          sampleStore.tasks.length) :=
  ⟨by decide, by decide, by decide,
    complete_then_undo ⟨124, 5, 1, 12, false, []⟩ sampleStore 1 (by decide) (by decide) (by decide)⟩

/-- Completing the pending second task and undoing gives the collection back. -/
theorem undo_of_complete_resets_flag_witness :
    (sampleStore.tasks.map Task.id).Nodup ∧ (1 : Int) ≤ 2 ∧
    (2 : Int) ≤ (sampleStore.tasks.length : Int) ∧
    sampleStore.tasks.get? ((2 : Int) - 1).toNat =
      some ⟨2, "call bob", false, 2, "2024-02-01", "Work", false, ""⟩ ∧
    (undoLastAction (markTaskCompleted ⟨124, 5, 1, 12, false, []⟩ sampleStore 2)).tasks = sampleStore.tasks :=
  ⟨by decide, by decide, by decide, by decide,
    ((undo_of_complete_resets_flag ⟨124, 5, 1, 12, false, []⟩ sampleStore 2
      ⟨2, "call bob", false, 2, "2024-02-01", "Work", false, ""⟩
      (by decide) (by decide) (by decide) (by decide) rfl).2).mpr rfl⟩

/-- The bound at the sample store, before and after a delete. -/
theorem history_bounded_witness :
    sampleStore.actionHistory.length ≤ MAX_HISTORY ∧
    (ToDoList.init sampleStore.users sampleStore.files).actionHistory.length ≤ MAX_HISTORY ∧
    (applyOp sampleStore (Op.delete 1)).actionHistory.length ≤ MAX_HISTORY :=
  ⟨by decide, history_bounded sampleStore.users sampleStore.files sampleStore (Op.delete 1)
    (by decide)⟩

/-- The run of `elevenOps` from the sample store. -/
theorem eleven_mutations_witness :
    sampleStore.actionHistory.length ≤ MAX_HISTORY ∧ elevenOps.length = 11 ∧
    recordsOf sampleStore elevenOps = some elevenRecords ∧
    elevenRecords.length = 11 ∧
    (runOps sampleStore elevenOps).actionHistory = elevenRecords.drop 1 ∧
    (∀ k, k < 10 → (undoTimes k (runOps sampleStore elevenOps)).actionHistory ≠ []) ∧
    (undoTimes 10 (runOps sampleStore elevenOps)).actionHistory = [] ∧
    undoTimes 11 (runOps sampleStore elevenOps) = undoTimes 10 (runOps sampleStore elevenOps) :=
  ⟨by decide, by decide, by decide, by decide,
    eleven_mutations sampleStore elevenOps elevenRecords (by decide) (by decide) (by decide)⟩

/-- Ids issued when the sample file is loaded and when tasks are completed. -/
theorem ids_issued_once_witness :
    sampleStore.currentUser.isEmpty = false ∧
    (∃ s1, loadTasks sampleStore = some s1 ∧ s1.tasks.map Task.id = [4, 5] ∧ s1.nextId = 6) ∧
    (markTaskCompleted ⟨124, 5, 1, 12, false, []⟩ sampleStore 1).nextId = sampleStore.nextId + 1 ∧
    (markTaskCompleted ⟨124, 5, 1, 12, false, []⟩ sampleStore 2).nextId = sampleStore.nextId := by
  refine ⟨by decide, ?_, ?_, ?_⟩
  · cases hl : loadTasks sampleStore with
    | none => exact absurd hl (by decide)
    | some s1 =>
      have h := ids_issued_once.2.1 sampleStore s1 (by decide) hl
      have hlen : s1.tasks.length = 2 := by
        have : (loadTasks sampleStore).map (fun s => s.tasks.length) = some 2 := by decide
        rw [hl] at this
        exact Option.some.inj this
      refine ⟨s1, rfl, ?_, ?_⟩
      · rw [h.1, hlen]; decide
      · rw [h.2, hlen]; decide
  · obtain ⟨next, -, -, h⟩ := ids_issued_once.2.2.1 ⟨124, 5, 1, 12, false, []⟩ sampleStore 1
      ⟨1, "pay rent", false, 1, "2024-01-10", "General", true, "daily"⟩
      (by decide) (by decide) (by decide) rfl
    exact h
  · exact ids_issued_once.2.2.2.1 ⟨124, 5, 1, 12, false, []⟩ sampleStore 2
      ⟨2, "call bob", false, 2, "2024-02-01", "Work", false, ""⟩ (by decide) rfl

/-! ## Invalid indices and login -/

/-- C11. For every store and every index outside `1..size` (0 and negative values included),
`editTask`, `deleteTask` and `markTaskCompleted` return the store as it was: the task
collection, the action history and the id counter are unchanged and nothing is recorded. -/
theorem invalid_index_rejected (now : Tm) (s : ToDoList) (idx choice : Int) (text : String)
    (num : Int) (h : idx < 1 ∨ idx > (s.tasks.length : Int)) :
    editTask s idx choice text num = s ∧ deleteTask s idx = s ∧
    markTaskCompleted now s idx = s := by
  refine ⟨?_, ?_, ?_⟩
  · unfold editTask
    split_ifs <;> rfl
  · unfold deleteTask
    split_ifs <;> rfl
  · unfold markTaskCompleted
    split_ifs <;> rfl

/-- Index 0, index -2 and index `size + 1` on the sample store. -/
theorem invalid_index_rejected_witness :
    ((0 : Int) < 1 ∨ (0 : Int) > (sampleStore.tasks.length : Int)) ∧
    (editTask sampleStore 0 1 "x" 0 = sampleStore ∧ deleteTask sampleStore 0 = sampleStore ∧
      markTaskCompleted ⟨124, 5, 1, 12, false, []⟩ sampleStore 0 = sampleStore) ∧
    (editTask sampleStore (-2) 1 "x" 0 = sampleStore ∧ deleteTask sampleStore (-2) = sampleStore ∧
      markTaskCompleted ⟨124, 5, 1, 12, false, []⟩ sampleStore (-2) = sampleStore) ∧
    (editTask sampleStore 4 1 "x" 0 = sampleStore ∧ deleteTask sampleStore 4 = sampleStore ∧
      markTaskCompleted ⟨124, 5, 1, 12, false, []⟩ sampleStore 4 = sampleStore) :=
  ⟨by decide, invalid_index_rejected ⟨124, 5, 1, 12, false, []⟩ sampleStore 0 1 "x" 0 (by decide),
    invalid_index_rejected ⟨124, 5, 1, 12, false, []⟩ sampleStore (-2) 1 "x" 0 (by decide),
    invalid_index_rejected ⟨124, 5, 1, 12, false, []⟩ sampleStore 4 1 "x" 0 (by decide)⟩

/-- What a successful `loginUser` does to the store: the user becomes current and `loadTasks`
runs; nothing else changes. -/
theorem loginUser_success (s s1 : ToDoList) (u p : String)
    (h : loginUser s u p = some (s1, true)) :
    loadTasks { s with currentUser := u } = some s1 := by
  unfold loginUser at h
  split at h
  · split_ifs at h
    · cases hl : loadTasks { s with currentUser := u } with
      | none => simp [hl] at h
      | some s2 =>
        simp only [hl, Option.map_some', Option.some.injEq, Prod.mk.injEq, and_true] at h
        rw [h]
    · simp at h
  · simp at h

theorem loadTasks_history (s s1 : ToDoList) (h : loadTasks s = some s1) :
    s1.actionHistory = s.actionHistory := by
  unfold loadTasks at h
  split_ifs at h
  · simp only [Option.some.injEq] at h
    rw [← h]
  · split at h
    · simp only [Option.some.injEq] at h
      rw [← h]
    · split at h
      · simp at h
      · simp only [Option.some.injEq] at h
        rw [← h]

theorem loadTasks_tasks (s s1 : ToDoList) (hu : s.currentUser.isEmpty = false)
    (h : loadTasks s = some s1) : tasksLoadedFor s s.currentUser = some s1.tasks := by
  unfold loadTasks at h
  unfold tasksLoadedFor
  rw [hu] at h
  simp only [Bool.false_eq_true, if_false] at h
  split at h
  · rename_i hf
    simp only [Option.some.injEq] at h
    rw [← h]
  · rename_i content hf
    split at h
    · simp at h
    · rename_i r hr
      simp only [Option.some.injEq] at h
      simp only [hr, Option.map_some']
      rw [← h]

theorem loadTasks_currentUser (s s1 : ToDoList) (h : loadTasks s = some s1) :
    s1.currentUser = s.currentUser := by
  unfold loadTasks at h
  split_ifs at h
  · simp only [Option.some.injEq] at h
    rw [← h]
  · split at h
    · simp only [Option.some.injEq] at h
      rw [← h]
    · split at h
      · simp at h
      · simp only [Option.some.injEq] at h
        rw [← h]

theorem loadTasks_of_no_user (s : ToDoList) (hu : s.currentUser.isEmpty = true) :
    loadTasks s = some s := by
  unfold loadTasks
  rw [if_pos hu]

/-- A login, successful or not, leaves the action history as it was, and leaves the task
collection as it was unless a user is logged in afterwards. -/
theorem loginUser_keeps (s s1 : ToDoList) (u p : String) (b : Bool)
    (h : loginUser s u p = some (s1, b)) :
    s1.actionHistory = s.actionHistory ∧ (isLoggedIn s1 = false → s1.tasks = s.tasks) := by
  unfold loginUser at h
  split at h
  · split_ifs at h
    · cases hl : loadTasks { s with currentUser := u } with
      | none => simp [hl] at h
      | some s2 =>
        simp only [hl, Option.map_some', Option.some.injEq, Prod.mk.injEq] at h
        obtain ⟨h1, -⟩ := h
        subst h1
        have hh1 : s2.actionHistory = s.actionHistory :=
          loadTasks_history { s with currentUser := u } s2 hl
        refine ⟨hh1, ?_⟩
        intro hlog
        have hcu := loadTasks_currentUser _ _ hl
        have hemp : ({ s with currentUser := u } : ToDoList).currentUser.isEmpty = true := by
          simp only [isLoggedIn, Bool.not_eq_false'] at hlog
          rw [← hcu]
          exact hlog
        rw [loadTasks_of_no_user _ hemp] at hl
        simp only [Option.some.injEq] at hl
        rw [← hl]
    · simp only [Option.some.injEq, Prod.mk.injEq] at h
      rw [← h.1]
      exact ⟨rfl, fun _ => rfl⟩
  · simp only [Option.some.injEq, Prod.mk.injEq] at h
    rw [← h.1]
    exact ⟨rfl, fun _ => rfl⟩

theorem loginMenuStep_keeps (s s1 : ToDoList) (input : LoginMenuInput)
    (h : loginMenuStep s input = some s1) :
    s1.actionHistory = s.actionHistory ∧ (isLoggedIn s1 = false → s1.tasks = s.tasks) := by
  cases input with
  | login u p =>
    simp only [loginMenuStep] at h
    cases hl : loginUser s u p with
    | none => simp [hl] at h
    | some r =>
      simp only [hl, Option.map_some', Option.some.injEq] at h
      subst h
      exact loginUser_keeps s r.1 u p r.2 hl
  | register u p =>
    simp only [loginMenuStep, Option.some.injEq] at h
    subst h
    unfold registerUser
    split <;> exact ⟨rfl, fun _ => rfl⟩
  | invalid =>
    simp only [loginMenuStep, Option.some.injEq] at h
    subst h
    exact ⟨rfl, fun _ => rfl⟩

/-- In the login loop the store holds no recorded action, and no task while nobody is logged
in. -/
theorem loginLoop_clean (s s1 : ToDoList) (inputs : List LoginMenuInput)
    (hh : s.actionHistory = []) (ht : isLoggedIn s = false → s.tasks = [])
    (h : loginLoop s inputs = some s1) :
    s1.actionHistory = [] ∧ (isLoggedIn s1 = false → s1.tasks = []) := by
  induction inputs generalizing s with
  | nil =>
    simp only [loginLoop, Option.some.injEq] at h
    subst h
    exact ⟨hh, ht⟩
  | cons input rest ih =>
    simp only [loginLoop] at h
    split_ifs at h with hlog
    · simp only [Option.some.injEq] at h
      subst h
      exact ⟨hh, ht⟩
    · have hlog2 : isLoggedIn s = false := by simpa using hlog
      cases hs : loginMenuStep s input with
      | none => simp [hs] at h
      | some s2 =>
        simp only [hs] at h
        obtain ⟨k1, k2⟩ := loginMenuStep_keeps s s2 input hs
        exact ih s2 (by rw [k1, hh]) (fun hl => by rw [k2 hl, ht hlog2]) h

/-- C12. Two users' in-memory state never overlaps. The program calls `loginUser` only in the
login loop of `main`; for every store that loop reaches from program start (any user table,
any files, any passes of the login menu) while nobody is logged in, after a successful
`loginUser u p` the action history is empty, so it holds no entry recorded before the login,
the task collection is exactly the tasks loaded from the file of `u` (empty when `u` is the
empty name, for which nothing is loaded), and a following `undoLastAction` changes
nothing. -/
theorem login_starts_clean (users : List (String × User)) (files : List (String × String))
    (inputs : List LoginMenuInput) (s s1 : ToDoList) (u p : String)
    (hrun : loginLoop (ToDoList.init users files) inputs = some s)
    (hloop : isLoggedIn s = false)
    (h : loginUser s u p = some (s1, true)) :
    s1.actionHistory = [] ∧
    (u.isEmpty = false → tasksLoadedFor s u = some s1.tasks) ∧
    (u.isEmpty = true → s1.tasks = []) ∧
    undoLastAction s1 = s1 := by
  obtain ⟨c1, c2⟩ := loginLoop_clean (ToDoList.init users files) s inputs rfl (fun _ => rfl) hrun
  obtain ⟨k1, k2⟩ := loginUser_keeps s s1 u p true h
  have hl := loginUser_success s s1 u p h
  have hcu := loadTasks_currentUser _ _ hl
  have hhist : s1.actionHistory = [] := by rw [k1, c1]
  refine ⟨hhist, ?_, ?_, undo_of_empty s1 hhist⟩
  · intro hu
    exact loadTasks_tasks _ s1 hu hl
  · intro hu
    have hlog : isLoggedIn s1 = false := by
      simp only [isLoggedIn, Bool.not_eq_false']
      rw [hcu]
      exact hu
    rw [k2 hlog, c2 hloop]

/-- Login of `ann` from a store the login loop has reached. -/
theorem login_starts_clean_witness :
    loginLoop (ToDoList.init sampleStore.users sampleStore.files) samplePasses =
      some atLoginMenu ∧
    isLoggedIn atLoginMenu = false ∧
    loginUser atLoginMenu "ann" "pw" = some (annLoggedIn, true) ∧
    annLoggedIn.tasks.map Task.description = ["pay rent", "call bob"] ∧
    annLoggedIn.actionHistory = [] ∧
    ("ann".isEmpty = false → tasksLoadedFor atLoginMenu "ann" = some annLoggedIn.tasks) ∧
    ("ann".isEmpty = true → annLoggedIn.tasks = []) ∧
    undoLastAction annLoggedIn = annLoggedIn :=
  ⟨by decide, by decide, by decide, by decide,
    login_starts_clean sampleStore.users sampleStore.files samplePasses atLoginMenu annLoggedIn
      "ann" "pw"
      (by decide) (by decide) (by decide)⟩

/-! ## Recurrence: the next occurrence -/

theorem daysInMonth_bounds (y : Int) (m : Nat) : 28 ≤ daysInMonth y m ∧ daysInMonth y m ≤ 31 := by
  unfold daysInMonth
  split_ifs <;> omega

theorem normalizeDays_of_le (fuel : Nat) (y : Int) (m d : Nat)
    (h : d ≤ daysInMonth (1900 + y) m) : normalizeDays fuel y m d = (y, m, d) := by
  cases fuel with
  | zero => rfl
  | succ f => simp [normalizeDays, h]

theorem normalizeDays_of_gt (fuel : Nat) (y : Int) (m d : Nat)
    (h : daysInMonth (1900 + y) m < d) :
    normalizeDays (fuel + 1) y m d =
      if m = 11 then normalizeDays fuel (y + 1) 0 (d - daysInMonth (1900 + y) m)
      else normalizeDays fuel y (m + 1) (d - daysInMonth (1900 + y) m) := by
  simp [normalizeDays, Nat.not_le.mpr h]

/-- The day loop of `mktime` ends on a calendar date when it has fuel for its rounds. -/
theorem normalizeDays_calendar (fuel : Nat) (y : Int) (m d : Nat) (hm : m < 12) (hd : 1 ≤ d)
    (hf : d ≤ 28 * fuel) :
    (normalizeDays fuel y m d).2.1 < 12 ∧ 1 ≤ (normalizeDays fuel y m d).2.2 ∧
    (normalizeDays fuel y m d).2.2 ≤
      daysInMonth (1900 + (normalizeDays fuel y m d).1) (normalizeDays fuel y m d).2.1 := by
  induction fuel generalizing y m d with
  | zero => omega
  | succ f ih =>
    by_cases hle : d ≤ daysInMonth (1900 + y) m
    · rw [normalizeDays_of_le _ _ _ _ hle]
      exact ⟨hm, hd, hle⟩
    · have hgt : daysInMonth (1900 + y) m < d := Nat.not_le.mp hle
      have hb := daysInMonth_bounds (1900 + y) m
      rw [normalizeDays_of_gt _ _ _ _ hgt]
      split_ifs with h11
      · exact ih (y + 1) 0 _ (by omega) (by omega) (by omega)
      · exact ih y (m + 1) _ (by omega) (by omega) (by omega)

theorem normalizeDate_calendar (t : Tm) (hd : 1 ≤ t.tm_mday) :
    IsCalendarDate (normalizeDate t) := by
  unfold IsCalendarDate normalizeDate
  exact normalizeDays_calendar _ _ _ _ (Nat.mod_lt _ (by norm_num)) hd (by omega)

/-- The date reached by a run of days that crosses at most one end of month. -/
theorem addDays_eq (k : Nat) (t : Tm) (hv : IsCalendarDate t) (hk : k ≤ 28) :
    addDays k t =
      if t.tm_mday + k ≤ daysInMonth (1900 + t.tm_year) t.tm_mon then
        { t with tm_mday := t.tm_mday + k }
      else if t.tm_mon = 11 then
        { t with tm_year := t.tm_year + 1, tm_mon := 0,
                 tm_mday := t.tm_mday + k - daysInMonth (1900 + t.tm_year) t.tm_mon }
      else
        { t with tm_mon := t.tm_mon + 1,
                 tm_mday := t.tm_mday + k - daysInMonth (1900 + t.tm_year) t.tm_mon } := by
  induction k generalizing t with
  | zero =>
    obtain ⟨y, m, d, hr, dst, z⟩ := t
    simp only [addDays, Nat.add_zero]
    rw [if_pos hv.2.2]
  | succ n ih =>
    obtain ⟨y, m, d, hr, dst, z⟩ := t
    obtain ⟨hm, hd1, hd2⟩ := hv
    simp only at hm hd1 hd2
    simp only [addDays]
    by_cases hstay : d + 1 ≤ daysInMonth (1900 + y) m
    · have hn : nextDay ⟨y, m, d, hr, dst, z⟩ = ⟨y, m, d + 1, hr, dst, z⟩ := by
        simp [nextDay, hstay]
      rw [hn, ih ⟨y, m, d + 1, hr, dst, z⟩ ⟨hm, by simp, hstay⟩ (by omega)]
      simp only
      have e : d + 1 + n = d + (n + 1) := by omega
      rw [e]
    · have hdim : d = daysInMonth (1900 + y) m := by omega
      by_cases h11 : m = 11
      · have hn : nextDay ⟨y, m, d, hr, dst, z⟩ = ⟨y + 1, 0, 1, hr, dst, z⟩ := by
          simp only [nextDay]
          rw [if_neg hstay, if_pos h11]
        have hb := daysInMonth_bounds (1900 + (y + 1)) 0
        rw [hn, ih ⟨y + 1, 0, 1, hr, dst, z⟩ ⟨by simp, by simp, by simp only; omega⟩ (by omega)]
        simp only
        rw [if_pos (by omega), if_neg (by omega), if_pos h11]
        congr 1
        omega
      · have hn : nextDay ⟨y, m, d, hr, dst, z⟩ = ⟨y, m + 1, 1, hr, dst, z⟩ := by
          simp only [nextDay]
          rw [if_neg hstay, if_neg h11]
        have hb := daysInMonth_bounds (1900 + y) (m + 1)
        rw [hn, ih ⟨y, m + 1, 1, hr, dst, z⟩ ⟨by simp only; omega, by simp, by simp only; omega⟩
          (by omega)]
        simp only
        rw [if_pos (by omega), if_neg (by omega), if_neg h11]
        congr 1
        omega

/-- Adding up to 28 days to the day field of a calendar date and normalising gives the date
that many days later. -/
theorem normalizeDate_add_days (t : Tm) (k : Nat) (hv : IsCalendarDate t) (hk : k ≤ 28) :
    normalizeDate { t with tm_mday := t.tm_mday + k } = addDays k t := by
  obtain ⟨y, m, d, hr, dst, z⟩ := t
  obtain ⟨hm, hd1, hd2⟩ := hv
  simp only at hm hd1 hd2
  rw [addDays_eq k ⟨y, m, d, hr, dst, z⟩ ⟨hm, hd1, hd2⟩ hk]
  simp only [normalizeDate]
  have hdiv : m / 12 = 0 := Nat.div_eq_of_lt hm
  have hmod : m % 12 = m := Nat.mod_eq_of_lt hm
  rw [hdiv, hmod]
  simp only [Nat.cast_zero, add_zero]
  by_cases hle : d + k ≤ daysInMonth (1900 + y) m
  · rw [normalizeDays_of_le _ _ _ _ hle, if_pos hle]
  · have hgt : daysInMonth (1900 + y) m < d + k := Nat.not_le.mp hle
    obtain ⟨f, hf⟩ : ∃ f, d + k = f + 1 := ⟨d + k - 1, by omega⟩
    rw [if_neg hle]
    have e : normalizeDays (d + k) y m (d + k) = normalizeDays (f + 1) y m (d + k) := by
      rw [hf]
    rw [e, normalizeDays_of_gt f y m (d + k) hgt]
    by_cases h11 : m = 11
    · have hb := daysInMonth_bounds (1900 + (y + 1)) 0
      rw [if_pos h11, if_pos h11, normalizeDays_of_le _ _ _ _ (by omega)]
    · have hb := daysInMonth_bounds (1900 + y) (m + 1)
      rw [if_neg h11, if_neg h11, normalizeDays_of_le _ _ _ _ (by omega)]

/-- Where the daylight-saving flag of the reading agrees with the zone at the normalised date,
`mktime` only normalises. -/
theorem mktime_of_agree (t : Tm) (h : t.tm_isdst = dstInEffect (normalizeDate t)) :
    mktime t = normalizeDate t := by
  unfold mktime
  simp only
  rw [if_pos h]

/-- What `createNextOccurrence` returns for a recurring task, whatever the clock reading: the
id is the counter value, which then goes up by one; the task is not completed; description,
priority, category and recurrence are those of `t`; the due date is the text of `mktime` on
the advanced clock fields and is the same whatever the due date of `t` is. -/
theorem createNextOccurrence_fields (t : Task) (now : Tm) (nextId : Int) (due : String)
    (hr : t.isRecurring = true) :
    (t.createNextOccurrence now nextId).1.id = nextId ∧
    (t.createNextOccurrence now nextId).2 = nextId + 1 ∧
    (t.id < nextId → (t.createNextOccurrence now nextId).1.id ≠ t.id) ∧
    (t.createNextOccurrence now nextId).1.isCompleted = false ∧
    (t.createNextOccurrence now nextId).1.description = t.description ∧
    (t.createNextOccurrence now nextId).1.priority = t.priority ∧
    (t.createNextOccurrence now nextId).1.category = t.category ∧
    (t.createNextOccurrence now nextId).1.isRecurring = t.isRecurring ∧
    (t.createNextOccurrence now nextId).1.recurringType = t.recurringType ∧
    (t.createNextOccurrence now nextId).1.dueDate =
      formatDate (mktime (advanceClock now t.recurringType)) ∧
    ({ t with dueDate := due }.createNextOccurrence now nextId).1.dueDate =
      (t.createNextOccurrence now nextId).1.dueDate := by
  have hc : t.createNextOccurrence now nextId =
      ({ t with id := nextId, isCompleted := false,
                dueDate := formatDate (mktime (advanceClock now t.recurringType)) },
       nextId + 1) := by
    simp [Task.createNextOccurrence, hr]
  rw [hc]
  refine ⟨rfl, rfl, ?_, rfl, rfl, rfl, rfl, rfl, rfl, rfl, ?_⟩
  · intro hlt heq
    simp only at heq
    omega
  · simp [Task.createNextOccurrence, hr]

/-- Where the daylight-saving flag of the reading agrees with the zone at the advanced date, the
successor of a daily task is due the day after the clock date and the successor of a weekly
task seven days after it. -/
theorem createNextOccurrence_due_when_flag_agrees (t : Task) (now : Tm) (nextId : Int)
    (hr : t.isRecurring = true) (hv : IsCalendarDate now)
    (hz : now.tm_isdst = dstInEffect (normalizeDate (advanceClock now t.recurringType))) :
    (t.recurringType = "daily" →
      (t.createNextOccurrence now nextId).1.dueDate = formatDate (nextDay now)) ∧
    (t.recurringType = "weekly" →
      (t.createNextOccurrence now nextId).1.dueDate = formatDate (addDays 7 now)) := by
  have hd := (createNextOccurrence_fields t now nextId "" hr).2.2.2.2.2.2.2.2.2.1
  have hflag : (advanceClock now t.recurringType).tm_isdst = now.tm_isdst := by
    unfold advanceClock
    split_ifs <;> rfl
  have hm : mktime (advanceClock now t.recurringType) =
      normalizeDate (advanceClock now t.recurringType) :=
    mktime_of_agree _ (by rw [hflag]; exact hz)
  rw [hd, hm]
  constructor
  · intro hty
    have ha : advanceClock now t.recurringType = { now with tm_mday := now.tm_mday + 1 } := by
      simp [advanceClock, hty]
    rw [ha, normalizeDate_add_days now 1 hv (by norm_num)]
    rfl
  · intro hty
    have ha : advanceClock now t.recurringType = { now with tm_mday := now.tm_mday + 7 } := by
      simp [advanceClock, hty]
    rw [ha, normalizeDate_add_days now 7 hv (by norm_num)]

/-- C13, evaluated where the code departs from it. A weekly task is completed on 2024-10-28 at
half past midnight in the US Eastern zone, where daylight-saving time is in effect until
2024-11-03 (the reading is a calendar date and its flag is the zone's state). The claim puts
the successor seven days after the clock date, on 2024-11-04. The code advances `tm_mday` by
seven and calls `mktime` with the hour and the flag `tm_isdst` of the present moment; seven
days on the zone is on standard time, `mktime` takes 00:30 daylight time as 23:30 standard
time of the day before, and the successor is due 2024-11-03. At noon of the same clock date
the successor is due 2024-11-04, so the due date is not a function of the clock date and the
recurrence type alone. -/
theorem next_occurrence_dst_shift :
    weeklyTask.isRecurring = true ∧ weeklyTask.recurringType = "weekly" ∧
    lateOctoberNight.tm_mon < 12 ∧ 1 ≤ lateOctoberNight.tm_mday ∧
    lateOctoberNight.tm_mday ≤
      daysInMonth (1900 + lateOctoberNight.tm_year) lateOctoberNight.tm_mon ∧
    dstInEffect lateOctoberNight = lateOctoberNight.tm_isdst ∧
    getCurrentDate lateOctoberNight = "2024-10-28" ∧
    formatDate (addDays 7 lateOctoberNight) = "2024-11-04" ∧
    (weeklyTask.createNextOccurrence lateOctoberNight 5).1.dueDate = "2024-11-03" ∧
    getCurrentDate { lateOctoberNight with tm_hour := 12 } = "2024-10-28" ∧
    (weeklyTask.createNextOccurrence { lateOctoberNight with tm_hour := 12 } 5).1.dueDate =
      "2024-11-04" := by
  decide

/-- The daily task of the sample store, completed at noon of 2024-06-01 in a zone without
daylight-saving time: the successor is due 2024-06-02. -/
theorem createNextOccurrence_sample :
    ((⟨1, "pay rent", false, 1, "2024-01-10", "General", true, "daily"⟩ : Task).createNextOccurrence
      ⟨124, 5, 1, 12, false, []⟩ 4).1 =
        ⟨4, "pay rent", false, 1, "2024-06-02", "General", true, "daily"⟩ ∧
    ((markTaskCompleted ⟨124, 5, 1, 12, false, []⟩ sampleStore 1).tasks.getLast?).map Task.dueDate =
      some "2024-06-02" := by
  decide

/-! ## Uniqueness of ids along a session -/

theorem map_id_eraseFirstId (x : Int) (ts : List Task) :
    (eraseFirstId x ts).map Task.id = eraseFirstVal x (ts.map Task.id) := by
  induction ts with
  | nil => rfl
  | cons t ts ih =>
    by_cases h : t.id = x
    · simp [eraseFirstId, eraseFirstVal, h]
    · simp [eraseFirstId, eraseFirstVal, h, ih]

theorem map_id_insertAt (t : Task) (i : Nat) (ts : List Task) :
    (insertAt t i ts).map Task.id = insertValAt t.id i (ts.map Task.id) := by
  induction ts generalizing i with
  | nil => cases i <;> rfl
  | cons x xs ih =>
    cases i with
    | zero => rfl
    | succ j => simp [insertAt, insertValAt, ih]

theorem map_id_markPendingFirstId (x : Int) (ts : List Task) :
    (markPendingFirstId x ts).map Task.id = ts.map Task.id := by
  induction ts with
  | nil => rfl
  | cons t ts ih =>
    by_cases h : t.id = x
    · simp [markPendingFirstId, h, Task.markPending]
    · simp [markPendingFirstId, h, ih]

theorem map_id_set (ts : List Task) (i : Nat) (t : Task) :
    (ts.set i t).map Task.id = (ts.map Task.id).set i t.id := by
  induction ts generalizing i with
  | nil => rfl
  | cons x xs ih =>
    cases i with
    | zero => rfl
    | succ j => simp [ih]

/-- The ids after `applyUndo` are `undoIds` of the ids before. -/
theorem applyUndo_ids (ts : List Task) (a : Action) :
    (applyUndo ts a).map Task.id = undoIds (ts.map Task.id) a := by
  unfold applyUndo undoIds
  cases a.type with
  | ADD => exact map_id_eraseFirstId _ _
  | DELETE =>
    simp only [List.length_map]
    split_ifs
    · exact map_id_insertAt _ _ _
    · rfl
  | COMPLETE => exact map_id_markPendingFirstId _ _
  | EDIT =>
    simp only [List.length_map]
    split_ifs
    · exact map_id_set _ _ _
    · rfl

theorem StackOk_nodup (n : Int) (ids : List Int) (st : List Action) (h : StackOk n ids st) :
    ids.Nodup ∧ ∀ x ∈ ids, x < n := by
  cases st with
  | nil => exact h
  | cons a rest => exact ⟨h.1, h.2.1⟩

theorem RecordOk_mono (n m : Int) (ids : List Int) (a : Action) (hnm : n ≤ m)
    (h : RecordOk n ids a) : RecordOk m ids a :=
  ⟨lt_of_lt_of_le h.1 hnm, h.2⟩

theorem StackOk_mono (n m : Int) (ids : List Int) (st : List Action) (hnm : n ≤ m)
    (h : StackOk n ids st) : StackOk m ids st := by
  induction st generalizing ids with
  | nil => exact ⟨h.1, fun x hx => lt_of_lt_of_le (h.2 x hx) hnm⟩
  | cons a rest ih =>
    exact ⟨h.1, fun x hx => lt_of_lt_of_le (h.2.1 x hx) hnm, RecordOk_mono n m ids a hnm h.2.2.1,
      ih _ h.2.2.2⟩

/-- Forgetting the oldest record keeps the invariant. -/
theorem StackOk_dropLast (n : Int) (ids : List Int) (st : List Action) (h : StackOk n ids st) :
    StackOk n ids st.dropLast := by
  induction st generalizing ids with
  | nil => exact h
  | cons a rest ih =>
    cases rest with
    | nil => exact ⟨h.1, h.2.1⟩
    | cons b rest2 =>
      exact ⟨h.1, h.2.1, h.2.2.1, ih _ h.2.2.2⟩

theorem eraseFirstVal_append_ne (x y : Int) (ids : List Int) (h : y ≠ x) :
    eraseFirstVal x (ids ++ [y]) = eraseFirstVal x ids ++ [y] := by
  induction ids with
  | nil => simp [eraseFirstVal, h]
  | cons z zs ih =>
    by_cases hz : z = x
    · simp [eraseFirstVal, hz]
    · simp [eraseFirstVal, hz, ih]

theorem eraseFirstVal_append_self (x : Int) (ids : List Int) (h : x ∉ ids) :
    eraseFirstVal x (ids ++ [x]) = ids := by
  induction ids with
  | nil => simp [eraseFirstVal]
  | cons z zs ih =>
    have hz : z ≠ x := fun e => h (by simp [e])
    simp [eraseFirstVal, hz]
    exact ih (fun hm => h (by simp [hm]))

theorem insertValAt_append (x y : Int) (i : Nat) (ids : List Int) (h : i ≤ ids.length) :
    insertValAt x i (ids ++ [y]) = insertValAt x i ids ++ [y] := by
  induction ids generalizing i with
  | nil =>
    have : i = 0 := by simpa using h
    subst this
    rfl
  | cons z zs ih =>
    cases i with
    | zero => rfl
    | succ j =>
      simp only [List.cons_append, insertValAt, List.cons.injEq, true_and]
      exact ih j (by simpa using h)

theorem set_append_left_val (x y : Int) (i : Nat) (ids : List Int) (h : i < ids.length) :
    (ids ++ [y]).set i x = ids.set i x ++ [y] := by
  induction ids generalizing i with
  | nil => simp at h
  | cons z zs ih =>
    cases i with
    | zero => rfl
    | succ j =>
      simp only [List.cons_append, List.set_cons_succ, List.cons.injEq, true_and]
      exact ih j (by simpa using h)

theorem get?_append_left_val (y : Int) (i : Nat) (ids : List Int) (v : Int)
    (h : ids.get? i = some v) : (ids ++ [y]).get? i = some v := by
  induction ids generalizing i with
  | nil => simp at h
  | cons z zs ih =>
    cases i with
    | zero => simpa using h
    | succ j =>
      simp only [List.cons_append, List.get?_cons_succ] at h ⊢
      exact ih j h

/-- Undoing a fitting record commutes with a task appended under the current counter value. -/
theorem undoIds_append (n : Int) (ids : List Int) (a : Action) (h : RecordOk n ids a) :
    undoIds (ids ++ [n]) a = undoIds ids a ++ [n] := by
  obtain ⟨hid, hty⟩ := h
  have hl : ((ids ++ [n]).length : Int) = (ids.length : Int) + 1 := by simp
  unfold undoIds
  cases hcase : a.type with
  | ADD =>
    simp only
    exact eraseFirstVal_append_ne _ _ _ (by omega)
  | DELETE =>
    rw [hcase] at hty
    simp only at hty ⊢
    obtain ⟨h0, h1, -⟩ := hty
    rw [if_pos ⟨h0, by rw [hl]; omega⟩, if_pos ⟨h0, h1⟩]
    exact insertValAt_append _ _ _ _ (by omega)
  | COMPLETE => rfl
  | EDIT =>
    rw [hcase] at hty
    simp only at hty ⊢
    obtain ⟨h0, h1, -⟩ := hty
    rw [if_pos ⟨h0, by rw [hl]; omega⟩, if_pos ⟨h0, h1⟩]
    exact set_append_left_val _ _ _ _ (by omega)

theorem RecordOk_append (n : Int) (ids : List Int) (a : Action) (h : RecordOk n ids a) :
    RecordOk (n + 1) (ids ++ [n]) a := by
  obtain ⟨hid, hty⟩ := h
  have hl : ((ids ++ [n]).length : Int) = (ids.length : Int) + 1 := by simp
  refine ⟨by omega, ?_⟩
  cases hcase : a.type with
  | ADD => trivial
  | DELETE =>
    rw [hcase] at hty
    simp only at hty ⊢
    obtain ⟨h0, h1, h2⟩ := hty
    refine ⟨h0, by rw [hl]; omega, ?_⟩
    intro hmem
    rcases List.mem_append.mp hmem with hm | hm
    · exact h2 hm
    · simp only [List.mem_singleton] at hm
      omega
  | COMPLETE => trivial
  | EDIT =>
    rw [hcase] at hty
    simp only at hty ⊢
    obtain ⟨h0, h1, h2⟩ := hty
    exact ⟨h0, by rw [hl]; omega, get?_append_left_val _ _ _ _ h2⟩

theorem nodup_append_fresh (n : Int) (ids : List Int) (hd : ids.Nodup) (hb : ∀ x ∈ ids, x < n) :
    (ids ++ [n]).Nodup ∧ ∀ x ∈ ids ++ [n], x < n + 1 := by
  constructor
  · rw [List.nodup_append]
    refine ⟨hd, List.nodup_singleton n, ?_⟩
    intro x hx hx2
    simp only [List.mem_singleton] at hx2
    have := hb x hx
    omega
  · intro x hx
    rcases List.mem_append.mp hx with hm | hm
    · have := hb x hm
      omega
    · simp only [List.mem_singleton] at hm
      omega

/-- A task appended with the current counter value keeps the invariant of the undo stack: this
is the successor that undoing a completion leaves in the collection. -/
theorem StackOk_append (n : Int) (ids : List Int) (st : List Action) (h : StackOk n ids st) :
    StackOk (n + 1) (ids ++ [n]) st := by
  induction st generalizing ids with
  | nil => exact nodup_append_fresh n ids h.1 h.2
  | cons a rest ih =>
    obtain ⟨hd, hb, hr, hrest⟩ := h
    have hf := nodup_append_fresh n ids hd hb
    refine ⟨hf.1, hf.2, RecordOk_append n ids a hr, ?_⟩
    rw [undoIds_append n ids a hr]
    exact ih _ hrest

/-- The stack after `addToHistory`: the new record on top, the oldest record dropped when the
bound is exceeded. -/
theorem StackOk_push (n : Int) (ids : List Int) (s : ToDoList) (ty : ActionType) (t : Task)
    (i : Int) (h : StackOk n ids (Action.mk ty t i :: s.actionHistory.reverse)) :
    StackOk n ids (addToHistory s ty t i).actionHistory.reverse := by
  unfold addToHistory
  simp only
  split_ifs
  · have e : (s.actionHistory ++ [Action.mk ty t i]).tail.reverse =
        (Action.mk ty t i :: s.actionHistory.reverse).dropLast := by
      rw [← List.reverse_reverse (Action.mk ty t i :: s.actionHistory.reverse)]
      rw [List.dropLast_reverse]
      simp
    rw [e]
    exact StackOk_dropLast _ _ _ h
  · simpa using h

theorem map_id_set_same (ts : List Task) (i : Nat) (t e : Task) (h : ts.get? i = some t)
    (hid : e.id = t.id) : (ts.set i e).map Task.id = ts.map Task.id := by
  induction ts generalizing i with
  | nil => rfl
  | cons x xs ih =>
    cases i with
    | zero =>
      simp at h
      simp [h, hid]
    | succ j =>
      simp at h
      simp [ih j (by simpa using h)]

theorem applyEdit_id (t e : Task) (choice : Int) (text : String) (num : Int)
    (h : applyEdit t choice text num = some e) : e.id = t.id := by
  unfold applyEdit at h
  split_ifs at h <;> simp only [Option.some.injEq] at h <;> rw [← h] <;> rfl

theorem set_val_self (ids : List Int) (i : Nat) (v : Int) (h : ids.get? i = some v) :
    ids.set i v = ids := by
  induction ids generalizing i with
  | nil => rfl
  | cons x xs ih =>
    cases i with
    | zero => simp at h; simp [h]
    | succ j => simp at h; simp [ih j (by simpa using h)]

theorem insertValAt_eraseIdx (ids : List Int) (i : Nat) (v : Int) (h : ids.get? i = some v) :
    insertValAt v i (ids.eraseIdx i) = ids := by
  induction ids generalizing i with
  | nil => simp at h
  | cons x xs ih =>
    cases i with
    | zero =>
      simp at h
      simp [insertValAt, h]
    | succ j =>
      simp at h
      cases xs with
      | nil => simp at h
      | cons y ys =>
        have := ih j (by simpa using h)
        simp [List.eraseIdx, insertValAt] at this ⊢
        exact this

theorem not_mem_eraseIdx_of_nodup (ids : List Int) (i : Nat) (v : Int) (hd : ids.Nodup)
    (h : ids.get? i = some v) : v ∉ ids.eraseIdx i := by
  induction ids generalizing i with
  | nil => simp at h
  | cons x xs ih =>
    rw [List.nodup_cons] at hd
    cases i with
    | zero =>
      simp at h
      subst h
      simpa using hd.1
    | succ j =>
      simp at h
      have hv : v ∈ xs := List.getElem?_mem (by simpa using h)
      simp only [List.eraseIdx_cons_succ, List.mem_cons, not_or]
      refine ⟨?_, ih j hd.2 (by simpa using h)⟩
      intro e
      subst e
      exact hd.1 hv

theorem nodup_eraseIdx (ids : List Int) (i : Nat) (hd : ids.Nodup) : (ids.eraseIdx i).Nodup :=
  List.Nodup.sublist (List.eraseIdx_sublist ids i) hd

theorem get?_map_id (ts : List Task) (i : Nat) (t : Task) (h : ts.get? i = some t) :
    (ts.map Task.id).get? i = some t.id := by
  simp [List.get?_eq_getElem?] at h ⊢
  simp [h]

theorem StoreOk_addTask (s : ToDoList) (desc : String) (prio : Int) (due category : String)
    (recurring : Char) (recurType : Int) (h : StoreOk s) :
    StoreOk (addTask s desc prio due category recurring recurType) := by
  unfold StoreOk at h ⊢
  obtain ⟨hd, hb⟩ := StackOk_nodup _ _ _ h
  have hid := newTaskFromInput_id s.nextId desc prio due category recurring recurType
  have hf := nodup_append_fresh s.nextId _ hd hb
  have hnot : s.nextId ∉ s.tasks.map Task.id := fun hm => lt_irrefl _ (hb _ hm)
  unfold addTask
  rw [addToHistory_tasks, addToHistory_nextId]
  apply StackOk_push
  simp only [List.map_append, List.map_cons, List.map_nil, hid]
  refine ⟨hf.1, hf.2, ⟨by simp only [hid]; omega, trivial⟩, ?_⟩
  simp only [undoIds, hid]
  rw [eraseFirstVal_append_self _ _ hnot]
  exact StackOk_mono _ _ _ _ (by omega) h

theorem StoreOk_editTask (s : ToDoList) (idx choice : Int) (text : String) (num : Int)
    (h : StoreOk s) : StoreOk (editTask s idx choice text num) := by
  unfold editTask
  split_ifs with h1 h2
  · exact h
  · exact h
  · split
    · exact h
    · rename_i t ht
      split
      · exact h
      · rename_i e he
        unfold StoreOk at h ⊢
        obtain ⟨hd, hb⟩ := StackOk_nodup _ _ _ h
        have hid := applyEdit_id t e choice text num he
        have hget := get?_map_id s.tasks _ t ht
        have hlen : (idx - 1).toNat < s.tasks.length := by
          rcases Nat.lt_or_ge (idx - 1).toNat s.tasks.length with hl | hl
          · exact hl
          · rw [List.get?_eq_none.mpr hl] at ht
            exact absurd ht (by simp)
        rw [addToHistory_tasks, addToHistory_nextId]
        apply StackOk_push
        simp only
        rw [map_id_set_same s.tasks _ t e ht hid]
        have hrec : RecordOk s.nextId (s.tasks.map Task.id) ⟨ActionType.EDIT, t, idx - 1⟩ := by
          refine ⟨hb _ (List.mem_map_of_mem Task.id (List.get?_mem ht)), ?_⟩
          simp only [List.length_map]
          exact ⟨by omega, by omega, hget⟩
        refine ⟨hd, hb, hrec, ?_⟩
        simp only [undoIds, List.length_map]
        rw [if_pos ⟨by omega, by omega⟩, set_val_self _ _ _ hget]
        exact h

theorem StoreOk_deleteTask (s : ToDoList) (idx : Int) (h : StoreOk s) :
    StoreOk (deleteTask s idx) := by
  unfold deleteTask
  split_ifs with h1 h2
  · exact h
  · exact h
  · split
    · exact h
    · rename_i t ht
      unfold StoreOk at h ⊢
      obtain ⟨hd, hb⟩ := StackOk_nodup _ _ _ h
      have hget := get?_map_id s.tasks _ t ht
      have hlen : (idx - 1).toNat < s.tasks.length := by
        rcases Nat.lt_or_ge (idx - 1).toNat s.tasks.length with hl | hl
        · exact hl
        · rw [List.get?_eq_none.mpr hl] at ht
          exact absurd ht (by simp)
      have hmap : (s.tasks.eraseIdx (idx - 1).toNat).map Task.id =
          (s.tasks.map Task.id).eraseIdx (idx - 1).toNat := by
        generalize (idx - 1).toNat = i
        clear ht hget hlen
        induction s.tasks generalizing i with
        | nil => rfl
        | cons x xs ih =>
          cases i with
          | zero => rfl
          | succ j => simp [ih]
      have hlen2 : ((s.tasks.map Task.id).eraseIdx (idx - 1).toNat).length
          = s.tasks.length - 1 := by
        rw [List.length_eraseIdx, List.length_map, if_pos hlen]
      rw [addToHistory_tasks, addToHistory_nextId]
      apply StackOk_push
      simp only
      rw [hmap]
      have hsub : ∀ x ∈ (s.tasks.map Task.id).eraseIdx (idx - 1).toNat, x < s.nextId :=
        fun x hx => hb x ((List.eraseIdx_sublist _ _).subset hx)
      have hrec : RecordOk s.nextId ((s.tasks.map Task.id).eraseIdx (idx - 1).toNat)
          ⟨ActionType.DELETE, t, idx - 1⟩ := by
        refine ⟨hb _ (List.mem_map_of_mem Task.id (List.get?_mem ht)), ?_⟩
        simp only
        exact ⟨by omega, by rw [hlen2]; omega, not_mem_eraseIdx_of_nodup _ _ _ hd hget⟩
      refine ⟨nodup_eraseIdx _ _ hd, hsub, hrec, ?_⟩
      simp only [undoIds]
      rw [if_pos ⟨by omega, by rw [hlen2]; omega⟩, insertValAt_eraseIdx _ _ _ hget]
      exact h

theorem StoreOk_markTaskCompleted (now : Tm) (s : ToDoList) (idx : Int) (h : StoreOk s) :
    StoreOk (markTaskCompleted now s idx) := by
  unfold markTaskCompleted
  split_ifs with h1 h2
  · exact h
  · exact h
  · split
    · exact h
    · rename_i t ht
      unfold StoreOk at h
      obtain ⟨hd, hb⟩ := StackOk_nodup _ _ _ h
      have hmap := map_id_set_same s.tasks _ t t.markCompleted ht rfl
      have htid : t.id < s.nextId := hb _ (List.mem_map_of_mem Task.id (List.get?_mem ht))
      split_ifs with hr
      · unfold StoreOk
        have hs1 : (t.markCompleted.createNextOccurrence now s.nextId).1.id = s.nextId := by
          simp [Task.createNextOccurrence, hr]
        have hs2 : (t.markCompleted.createNextOccurrence now s.nextId).2 = s.nextId + 1 := by
          simp [Task.createNextOccurrence, hr]
        simp only [addToHistory_tasks, addToHistory_nextId, List.map_append, List.map_cons,
          List.map_nil, hs1, hs2]
        rw [hmap]
        have key : StackOk (s.nextId + 1) (s.tasks.map Task.id ++ [s.nextId])
            (Action.mk ActionType.COMPLETE t (-1) :: s.actionHistory.reverse) := by
          have hf := nodup_append_fresh s.nextId _ hd hb
          have hlt : t.id < s.nextId + 1 := by omega
          exact ⟨hf.1, hf.2, ⟨hlt, trivial⟩, StackOk_append _ _ _ h⟩
        exact StackOk_push _ _ { s with tasks := s.tasks.set (idx - 1).toNat t.markCompleted }
          _ _ _ key
      · unfold StoreOk
        rw [addToHistory_tasks, addToHistory_nextId]
        apply StackOk_push
        simp only
        rw [hmap]
        exact ⟨hd, hb, ⟨htid, trivial⟩, h⟩

theorem StoreOk_undoLastAction (s : ToDoList) (h : StoreOk s) : StoreOk (undoLastAction s) := by
  unfold undoLastAction
  split
  · exact h
  · rename_i a ha
    unfold StoreOk at h ⊢
    simp only
    obtain ⟨init, hinit⟩ : ∃ init, s.actionHistory = init ++ [a] := by
      have hne : s.actionHistory ≠ [] := by
        intro e
        rw [e] at ha
        simp at ha
      refine ⟨s.actionHistory.dropLast, ?_⟩
      have h2 := List.dropLast_append_getLast hne
      rw [List.getLast?_eq_getLast _ hne] at ha
      simp only [Option.some.injEq] at ha
      rw [ha] at h2
      exact h2.symm
    rw [hinit] at h ⊢
    rw [List.dropLast_concat, applyUndo_ids]
    rw [List.reverse_append] at h
    exact h.2.2.2

theorem StoreOk_logoutUser (s : ToDoList) (h : StoreOk s) : StoreOk (logoutUser s) := by
  unfold logoutUser
  split_ifs
  · unfold StoreOk
    simp only [List.map_nil, List.reverse_nil]
    exact ⟨List.nodup_nil, by simp⟩
  · exact h

/-- Every menu call keeps the invariant of the store. -/
theorem StoreOk_applyOp (s : ToDoList) (op : Op) (h : StoreOk s) : StoreOk (applyOp s op) := by
  cases op with
  | add desc prio due category recurring recurType => exact StoreOk_addTask _ _ _ _ _ _ _ h
  | edit idx choice text num => exact StoreOk_editTask _ _ _ _ _ h
  | delete idx => exact StoreOk_deleteTask _ _ h
  | complete now idx => exact StoreOk_markTaskCompleted _ _ _ h
  | undo => exact StoreOk_undoLastAction _ h
  | logout => exact StoreOk_logoutUser _ h

theorem StoreOk_runOps (s : ToDoList) (ops : List Op) (h : StoreOk s) : StoreOk (runOps s ops) := by
  induction ops generalizing s with
  | nil => exact h
  | cons op ops ih =>
    simp only [runOps, List.foldl_cons]
    exact ih _ (StoreOk_applyOp s op h)

/-- C14. Task ids are unique in every state a session reaches: from a collection whose ids are
pairwise distinct and all below the id counter, with an empty action history, every sequence
of `addTask`, `editTask`, `deleteTask`, `markTaskCompleted` and `undoLastAction` calls (and
`logoutUser`) leads to a collection whose ids are pairwise distinct and below the counter; the
re-insertion of Delete-undo and the overwrite of Edit-undo never bring in an id that is
already present. -/
theorem ids_stay_unique (s : ToDoList) (ops : List Op)
    (hd : (s.tasks.map Task.id).Nodup) (hb : ∀ t ∈ s.tasks, t.id < s.nextId)
    (hh : s.actionHistory = []) :
    ((runOps s ops).tasks.map Task.id).Nodup ∧
    ∀ t ∈ (runOps s ops).tasks, t.id < (runOps s ops).nextId := by
  have h0 : StoreOk s := by
    unfold StoreOk
    rw [hh]
    refine ⟨hd, ?_⟩
    intro x hx
    obtain ⟨t, ht, rfl⟩ := List.mem_map.mp hx
    exact hb t ht
  have h1 := StackOk_nodup _ _ _ (StoreOk_runOps s ops h0)
  exact ⟨h1.1, fun t ht => h1.2 _ (List.mem_map_of_mem Task.id ht)⟩

/-- A run on the sample store that completes the recurring task, undoes, deletes, undoes,
edits, adds and undoes. -/
theorem ids_stay_unique_witness :
    (sampleStore.tasks.map Task.id).Nodup ∧ (∀ t ∈ sampleStore.tasks, t.id < sampleStore.nextId) ∧
    sampleStore.actionHistory = [] ∧
    ((runOps sampleStore
        [Op.complete ⟨124, 5, 1, 12, false, []⟩ 1, Op.undo, Op.delete 1, Op.complete ⟨124, 5, 1, 12, false, []⟩ 1, Op.undo,
         Op.undo, Op.edit 2 1 "call bob back" 0, Op.delete 2, Op.add "buy milk" 2 "2024-03-01" "" 'n' 0,
         Op.undo, Op.undo, Op.undo, Op.undo]).tasks.map Task.id).Nodup ∧
    ∀ t ∈ (runOps sampleStore
        [Op.complete ⟨124, 5, 1, 12, false, []⟩ 1, Op.undo, Op.delete 1, Op.complete ⟨124, 5, 1, 12, false, []⟩ 1, Op.undo,
         Op.undo, Op.edit 2 1 "call bob back" 0, Op.delete 2, Op.add "buy milk" 2 "2024-03-01" "" 'n' 0,
         Op.undo, Op.undo, Op.undo, Op.undo]).tasks,
      t.id < (runOps sampleStore
        [Op.complete ⟨124, 5, 1, 12, false, []⟩ 1, Op.undo, Op.delete 1, Op.complete ⟨124, 5, 1, 12, false, []⟩ 1, Op.undo,
         Op.undo, Op.edit 2 1 "call bob back" 0, Op.delete 2, Op.add "buy milk" 2 "2024-03-01" "" 'n' 0,
         Op.undo, Op.undo, Op.undo, Op.undo]).nextId :=
  ⟨by decide, by decide, by decide,
    ids_stay_unique sampleStore _ (by decide) (by decide) (by decide)⟩

/-! ## String order on dates -/

theorem cons_lt_cons_char (a b : Char) (as bs : List Char) :
    List.lt (a :: as) (b :: bs) ↔ a < b ∨ (a = b ∧ List.lt as bs) := by
  constructor
  · intro h
    cases h with
    | head _ _ hlt => exact Or.inl hlt
    | tail h1 h2 h3 => exact Or.inr ⟨le_antisymm (not_lt.mp h2) (not_lt.mp h1), h3⟩
  · rintro (h | ⟨rfl, h⟩)
    · exact List.lt.head _ _ h
    · exact List.lt.tail (lt_irrefl _) (lt_irrefl _) h

theorem not_nil_lt_nil_char : ¬ List.lt ([] : List Char) [] := by
  intro h
  cases h

theorem digit_lt_iff (a b : Char) : a < b ↔ a.toNat < b.toNat := Iff.rfl

theorem digit_eq_iff (a b : Char) (ha : isDigit a = true) (hb : isDigit b = true) :
    a = b ↔ digitVal a = digitVal b := by
  have h1 := isDigit_bounds a ha
  have h2 := isDigit_bounds b hb
  constructor
  · rintro rfl; rfl
  · intro h
    unfold digitVal at h
    apply Char.ext
    apply UInt32.ext
    show a.toNat = b.toNat
    omega

theorem digit_lt_iff_val (a b : Char) (ha : isDigit a = true) (hb : isDigit b = true) :
    a < b ↔ digitVal a < digitVal b := by
  have h1 := isDigit_bounds a ha
  have h2 := isDigit_bounds b hb
  rw [digit_lt_iff]
  unfold digitVal
  omega

/-- On a text of the date shape the three `stoi` calls return the values of the year, month and
day digits. -/
theorem parseDate_of_shape (y1 y2 y3 y4 m1 m2 d1 d2 : Char)
    (h1 : isDigit y1 = true) (h2 : isDigit y2 = true) (h3 : isDigit y3 = true)
    (h4 : isDigit y4 = true) (h6 : isDigit m1 = true) (h7 : isDigit m2 = true)
    (h9 : isDigit d1 = true) (h10 : isDigit d2 = true) :
    parseDate (String.mk [y1, y2, y3, y4, '-', m1, m2, '-', d1, d2]) =
      some (((1000 * digitVal y1 + 100 * digitVal y2 + 10 * digitVal y3 + digitVal y4 : Nat) : Int),
        ((10 * digitVal m1 + digitVal m2 : Nat) : Int),
        ((10 * digitVal d1 + digitVal d2 : Nat) : Int)) := by
  have hsplit : getlineAll '-' [y1, y2, y3, y4, '-', m1, m2, '-', d1, d2] =
      [[y1, y2, y3, y4], [m1, m2], [d1, d2]] := by
    simp [getlineAll, isDigit_ne_dash _ h1, isDigit_ne_dash _ h2, isDigit_ne_dash _ h3,
      isDigit_ne_dash _ h4, isDigit_ne_dash _ h6, isDigit_ne_dash _ h7, isDigit_ne_dash _ h9,
      isDigit_ne_dash _ h10]
  have sy := stoi_of_digits [y1, y2, y3, y4] (by simp [h1, h2, h3, h4]) (by simp) (by simp)
  have sm := stoi_of_digits [m1, m2] (by simp [h6, h7]) (by simp) (by simp)
  have sd := stoi_of_digits [d1, d2] (by simp [h9, h10]) (by simp) (by simp)
  have vy : decimalValue [y1, y2, y3, y4] =
      1000 * digitVal y1 + 100 * digitVal y2 + 10 * digitVal y3 + digitVal y4 := by
    simp only [decimalValue, List.foldl_cons, List.foldl_nil]
    ring
  have vm : decimalValue [m1, m2] = 10 * digitVal m1 + digitVal m2 := by simp [decimalValue]
  have vd : decimalValue [d1, d2] = 10 * digitVal d1 + digitVal d2 := by simp [decimalValue]
  unfold parseDate
  simp only [hsplit, List.getD_cons_zero, List.getD_cons_succ, sy, sm, sd, vy, vm, vd]

/-- Byte order on two texts of the date shape is the order of their digit values, read from the
left. -/
theorem shape_lt_iff (a1 a2 a3 a4 a5 a6 a7 a8 b1 b2 b3 b4 b5 b6 b7 b8 : Char)
    (ha1 : isDigit a1 = true) (ha2 : isDigit a2 = true) (ha3 : isDigit a3 = true)
    (ha4 : isDigit a4 = true) (ha5 : isDigit a5 = true) (ha6 : isDigit a6 = true)
    (ha7 : isDigit a7 = true) (ha8 : isDigit a8 = true)
    (hb1 : isDigit b1 = true) (hb2 : isDigit b2 = true) (hb3 : isDigit b3 = true)
    (hb4 : isDigit b4 = true) (hb5 : isDigit b5 = true) (hb6 : isDigit b6 = true)
    (hb7 : isDigit b7 = true) (hb8 : isDigit b8 = true) :
    List.lt [a1, a2, a3, a4, '-', a5, a6, '-', a7, a8] [b1, b2, b3, b4, '-', b5, b6, '-', b7, b8] ↔
      dateBefore
        (((1000 * digitVal a1 + 100 * digitVal a2 + 10 * digitVal a3 + digitVal a4 : Nat) : Int),
          ((10 * digitVal a5 + digitVal a6 : Nat) : Int),
          ((10 * digitVal a7 + digitVal a8 : Nat) : Int))
        (((1000 * digitVal b1 + 100 * digitVal b2 + 10 * digitVal b3 + digitVal b4 : Nat) : Int),
          ((10 * digitVal b5 + digitVal b6 : Nat) : Int),
          ((10 * digitVal b7 + digitVal b8 : Nat) : Int)) := by
  have la1 := digitVal_le a1 ha1
  have la2 := digitVal_le a2 ha2
  have la3 := digitVal_le a3 ha3
  have la4 := digitVal_le a4 ha4
  have la5 := digitVal_le a5 ha5
  have la6 := digitVal_le a6 ha6
  have la7 := digitVal_le a7 ha7
  have la8 := digitVal_le a8 ha8
  have lb1 := digitVal_le b1 hb1
  have lb2 := digitVal_le b2 hb2
  have lb3 := digitVal_le b3 hb3
  have lb4 := digitVal_le b4 hb4
  have lb5 := digitVal_le b5 hb5
  have lb6 := digitVal_le b6 hb6
  have lb7 := digitVal_le b7 hb7
  have lb8 := digitVal_le b8 hb8
  simp only [cons_lt_cons_char, not_nil_lt_nil_char, and_false, or_false, true_and,
    digit_lt_iff_val _ _ ha1 hb1, digit_lt_iff_val _ _ ha2 hb2, digit_lt_iff_val _ _ ha3 hb3,
    digit_lt_iff_val _ _ ha4 hb4, digit_lt_iff_val _ _ ha5 hb5, digit_lt_iff_val _ _ ha6 hb6,
    digit_lt_iff_val _ _ ha7 hb7, digit_lt_iff_val _ _ ha8 hb8,
    digit_eq_iff _ _ ha1 hb1, digit_eq_iff _ _ ha2 hb2, digit_eq_iff _ _ ha3 hb3,
    digit_eq_iff _ _ ha4 hb4, digit_eq_iff _ _ ha5 hb5, digit_eq_iff _ _ ha6 hb6,
    digit_eq_iff _ _ ha7 hb7, digit_eq_iff _ _ ha8 hb8, dateBefore, lt_self_iff_false, false_or]
  omega

/-- Two texts of the date shape with the same year, month and day values are the same text. -/
theorem shape_eq_of_values (a1 a2 a3 a4 a5 a6 a7 a8 b1 b2 b3 b4 b5 b6 b7 b8 : Char)
    (ha1 : isDigit a1 = true) (ha2 : isDigit a2 = true) (ha3 : isDigit a3 = true)
    (ha4 : isDigit a4 = true) (ha5 : isDigit a5 = true) (ha6 : isDigit a6 = true)
    (ha7 : isDigit a7 = true) (ha8 : isDigit a8 = true)
    (hb1 : isDigit b1 = true) (hb2 : isDigit b2 = true) (hb3 : isDigit b3 = true)
    (hb4 : isDigit b4 = true) (hb5 : isDigit b5 = true) (hb6 : isDigit b6 = true)
    (hb7 : isDigit b7 = true) (hb8 : isDigit b8 = true)
    (hy : ((1000 * digitVal a1 + 100 * digitVal a2 + 10 * digitVal a3 + digitVal a4 : Nat) : Int) =
      ((1000 * digitVal b1 + 100 * digitVal b2 + 10 * digitVal b3 + digitVal b4 : Nat) : Int))
    (hm : ((10 * digitVal a5 + digitVal a6 : Nat) : Int) = ((10 * digitVal b5 + digitVal b6 : Nat) : Int))
    (hd : ((10 * digitVal a7 + digitVal a8 : Nat) : Int) = ((10 * digitVal b7 + digitVal b8 : Nat) : Int)) :
    [a1, a2, a3, a4, '-', a5, a6, '-', a7, a8] = [b1, b2, b3, b4, '-', b5, b6, '-', b7, b8] := by
  have la1 := digitVal_le a1 ha1
  have la2 := digitVal_le a2 ha2
  have la3 := digitVal_le a3 ha3
  have la4 := digitVal_le a4 ha4
  have la5 := digitVal_le a5 ha5
  have la6 := digitVal_le a6 ha6
  have la7 := digitVal_le a7 ha7
  have la8 := digitVal_le a8 ha8
  have lb1 := digitVal_le b1 hb1
  have lb2 := digitVal_le b2 hb2
  have lb3 := digitVal_le b3 hb3
  have lb4 := digitVal_le b4 hb4
  have lb5 := digitVal_le b5 hb5
  have lb6 := digitVal_le b6 hb6
  have lb7 := digitVal_le b7 hb7
  have lb8 := digitVal_le b8 hb8
  have e1 : a1 = b1 := (digit_eq_iff _ _ ha1 hb1).mpr (by omega)
  have e2 : a2 = b2 := (digit_eq_iff _ _ ha2 hb2).mpr (by omega)
  have e3 : a3 = b3 := (digit_eq_iff _ _ ha3 hb3).mpr (by omega)
  have e4 : a4 = b4 := (digit_eq_iff _ _ ha4 hb4).mpr (by omega)
  have e5 : a5 = b5 := (digit_eq_iff _ _ ha5 hb5).mpr (by omega)
  have e6 : a6 = b6 := (digit_eq_iff _ _ ha6 hb6).mpr (by omega)
  have e7 : a7 = b7 := (digit_eq_iff _ _ ha7 hb7).mpr (by omega)
  have e8 : a8 = b8 := (digit_eq_iff _ _ ha8 hb8).mpr (by omega)
  rw [e1, e2, e3, e4, e5, e6, e7, e8]

/-- C15. The byte-wise string comparison that `isOverdue` uses is a date comparison on texts
that `isValidDate` accepts: for two accepted texts `a` and `b` the year, month and day parse,
`a < b` holds exactly when the (year, month, day) of `a` comes before that of `b` in calendar
order, and `a = b` exactly when the two triples are equal; so when the current date `b` is an
accepted text, `isOverdue a` is true exactly when the date of `a` is strictly before today. -/
theorem string_order_is_date_order (a b : String) (now : Tm)
    (ha : isValidDate a = true) (hb : isValidDate b = true) :
    ∃ ta tb, parseDate a = some ta ∧ parseDate b = some tb ∧
      (a < b ↔ dateBefore ta tb) ∧ (a = b ↔ ta = tb) ∧
      (getCurrentDate now = b → (isOverdue now a = true ↔ dateBefore ta tb)) := by
  obtain ⟨a1, a2, a3, a4, a5, a6, a7, a8, has, ha1, ha2, ha3, ha4, ha5, ha6, ha7, ha8, -⟩ :=
    (isValidDate_iff a).mp ha
  obtain ⟨b1, b2, b3, b4, b5, b6, b7, b8, hbs, hb1, hb2, hb3, hb4, hb5, hb6, hb7, hb8, -⟩ :=
    (isValidDate_iff b).mp hb
  have hae : a = String.mk [a1, a2, a3, a4, '-', a5, a6, '-', a7, a8] := by
    cases a; simp only at has; rw [has]
  have hbe : b = String.mk [b1, b2, b3, b4, '-', b5, b6, '-', b7, b8] := by
    cases b; simp only at hbs; rw [hbs]
  have hlt : a < b ↔ List.lt a.data b.data :=
    String.lt_iff_toList_lt.trans (List.lt_iff_lex_lt _ _).symm
  have hpa := parseDate_of_shape a1 a2 a3 a4 a5 a6 a7 a8 ha1 ha2 ha3 ha4 ha5 ha6 ha7 ha8
  have hpb := parseDate_of_shape b1 b2 b3 b4 b5 b6 b7 b8 hb1 hb2 hb3 hb4 hb5 hb6 hb7 hb8
  rw [← hae] at hpa
  rw [← hbe] at hpb
  have hord := shape_lt_iff a1 a2 a3 a4 a5 a6 a7 a8 b1 b2 b3 b4 b5 b6 b7 b8
    ha1 ha2 ha3 ha4 ha5 ha6 ha7 ha8 hb1 hb2 hb3 hb4 hb5 hb6 hb7 hb8
  rw [has, hbs] at hlt
  have hltd := hlt.trans hord
  refine ⟨_, _, hpa, hpb, hltd, ?_, ?_⟩
  · constructor
    · intro hab
      rw [hab, hpb] at hpa
      exact (Option.some.inj hpa).symm
    · intro ht
      simp only [Prod.mk.injEq] at ht
      obtain ⟨hy, hm, hd⟩ := ht
      rw [hae, hbe]
      congr 1
      exact shape_eq_of_values a1 a2 a3 a4 a5 a6 a7 a8 b1 b2 b3 b4 b5 b6 b7 b8
        ha1 ha2 ha3 ha4 ha5 ha6 ha7 ha8 hb1 hb2 hb3 hb4 hb5 hb6 hb7 hb8 hy hm hd
  · intro hnow
    unfold isOverdue
    rw [hnow, decide_eq_true_iff]
    exact hltd

/-- A task due 2024-01-10 on clock date 2024-06-01. -/
theorem string_order_is_date_order_witness :
    isValidDate "2024-01-10" = true ∧ isValidDate (getCurrentDate ⟨124, 5, 1, 12, false, []⟩) = true ∧
    parseDate "2024-01-10" = some (2024, 1, 10) ∧
    parseDate (getCurrentDate ⟨124, 5, 1, 12, false, []⟩) = some (2024, 6, 1) ∧
    ∃ ta tb, parseDate "2024-01-10" = some ta ∧ parseDate (getCurrentDate ⟨124, 5, 1, 12, false, []⟩) = some tb ∧
      ("2024-01-10" < getCurrentDate ⟨124, 5, 1, 12, false, []⟩ ↔ dateBefore ta tb) ∧
      ("2024-01-10" = getCurrentDate ⟨124, 5, 1, 12, false, []⟩ ↔ ta = tb) ∧
      (getCurrentDate ⟨124, 5, 1, 12, false, []⟩ = getCurrentDate ⟨124, 5, 1, 12, false, []⟩ →
        (isOverdue ⟨124, 5, 1, 12, false, []⟩ "2024-01-10" = true ↔ dateBefore ta tb)) :=
  ⟨by decide, by decide, by decide, by decide,
    string_order_is_date_order "2024-01-10" (getCurrentDate ⟨124, 5, 1, 12, false, []⟩) ⟨124, 5, 1, 12, false, []⟩
      (by decide) (by decide)⟩

end TaskReaper
